import Mathlib

/-!
Verification of the serial pin-logging system (`serial_reader.py`,
`json_logger.py`, `services.py`, `plot_pins.py`).

The Python source is shallowly embedded: pure functions become Lean
functions on `List Char` / `Nat` / `Int`, stateful objects become explicit
state records with transition functions, raised exceptions become `Option`
(`none` = the call raised) or dedicated result types.  Library calls from
the Python standard library (`str.split`, `str.strip`, `int`, `json.dumps`,
`json.loads`, `datetime.isoformat`, `datetime.fromisoformat`) are modelled
on the fragment of their behaviour the program exercises; each such model
carries a doc comment saying what it models.
-/

namespace PinLog

/-! ## Modelled Python string primitives -/

/-- Model of Python `str.split(sep)` for a one-character separator:
splits on every occurrence, keeping empty fields (`"".split(",") == [""]`). -/
def splitOnChar (sep : Char) : List Char → List (List Char)
  | [] => [[]]
  | c :: cs =>
    match splitOnChar sep cs with
    | [] => [[]]
    | t :: ts => if c = sep then [] :: t :: ts else (c :: t) :: ts

/-- Model of Python `str.strip()` with no argument: removes leading and
trailing whitespace characters. -/
def pyStrip (cs : List Char) : List Char :=
  ((cs.dropWhile Char.isWhitespace).reverse.dropWhile Char.isWhitespace).reverse

/-- Digit character for a value `d < 10`. -/
def dchar (d : Nat) : Char := Char.ofNat (48 + d)

/-- Accumulator pass of decimal rendering, most significant digit first;
the first argument is structural-recursion fuel (always called with more
fuel than digits, so the `0` branch is never taken). -/
def natToCharsAux : Nat → Nat → List Char → List Char
  | 0, _, acc => acc
  | fuel + 1, n, acc =>
    let acc' := dchar (n % 10) :: acc
    if n < 10 then acc' else natToCharsAux fuel (n / 10) acc'

/-- Decimal rendering of a natural number, as Python `str(n)` produces. -/
def natToChars (n : Nat) : List Char := natToCharsAux (n + 1) n []

/-- Model of Python `str(int)`: optional minus sign, then decimal digits. -/
def intToChars (v : Int) : List Char :=
  if v < 0 then '-' :: natToChars (-v).toNat else natToChars v.toNat

/-- Numeric value of a list of decimal digit characters. -/
def charsToNat (cs : List Char) : Nat :=
  cs.foldl (fun a c => a * 10 + (c.toNat - 48)) 0

/-- Zero padding to width `k`, as Python `"%0kd"` formatting produces
(no truncation when the number is wider). -/
def padZ (k : Nat) (n : Nat) : List Char :=
  List.replicate (k - (natToChars n).length) '0' ++ natToChars n

/-! ## Line Codec (`serial_reader.parse_line`) -/

/-- Digit run continuation of a Python integer literal after at least one
digit has been seen: further digits, with single underscores allowed
between digits (Python `int("1_0") == 10`, `int("1__0")` raises). -/
def pyDigitsRest : List Char → Bool
  | [] => true
  | '_' :: c :: cs => c.isDigit && pyDigitsRest cs
  | c :: cs => c.isDigit && pyDigitsRest cs

/-- A valid unsigned Python decimal integer body: one digit, then
`pyDigitsRest`. -/
def pyDigits : List Char → Bool
  | [] => false
  | c :: cs => c.isDigit && pyDigitsRest cs

/-- Model of Python `int(str)` on ASCII input: strips whitespace, accepts an
optional single `+`/`-` sign followed by a nonempty digit run with
optional single grouping underscores; `none` models `ValueError`. -/
def pyInt : List Char → Option Int :=
  fun s =>
    let s := pyStrip s
    match s with
    | '+' :: rest => if pyDigits rest then some (charsToNat (rest.filter (· ≠ '_'))) else none
    | '-' :: rest => if pyDigits rest then some (-(charsToNat (rest.filter (· ≠ '_')) : Int)) else none
    | rest => if pyDigits rest then some (charsToNat (rest.filter (· ≠ '_'))) else none

/-- A sparse pin dictionary, as the Python `Dict[int, int]`: lookup of a
pin returns its value or `none` when absent. -/
def PinDict := Int → Option Int

/-- The empty dictionary `{}`. -/
def PinDict.empty : PinDict := fun _ => none

/-- Dictionary update `out[pin] = val`. -/
def PinDict.insert (d : PinDict) (pin v : Int) : PinDict :=
  fun k => if k = pin then some v else d k

/-- The pair loop of `parse_line`: consumes trimmed tokens two at a time,
parsing each as an integer and overwriting earlier bindings of the same
pin; `none` models the `ValueError` that `int()` raises on a bad token.
An odd tail is impossible at the call site (length was checked) but is
mapped to `none`. -/
def parseLoop : List (List Char) → PinDict → Option PinDict
  | [], out => some out
  | [_], _ => none
  | a :: b :: rest, out =>
    match pyInt a, pyInt b with
    | some pin, some v => parseLoop rest (out.insert pin v)
    | _, _ => none

/-- The trimmed non-empty comma-separated tokens of a line, as
`[p.strip() for p in line.split(",") if p.strip() != ""]`. -/
def lineTokens (line : List Char) : List (List Char) :=
  ((splitOnChar ',' line).map pyStrip).filter (· ≠ [])

/-- `serial_reader.parse_line`: `none` models a raised `ValueError`
(the spec's `MalformedLine`). -/
def parse_line (line : List Char) : Option PinDict :=
  let parts := lineTokens line
  if parts.length % 2 ≠ 0 then none
  else parseLoop parts PinDict.empty

/-! ## C1: specification-side description of the Line Codec output -/

/-- Tokens consumed in order as `(pin, value)` pairs (an odd tail is
dropped; the codec has already rejected odd lengths when this is used). -/
def toPairs : List (List Char) → List (List Char × List Char)
  | [] => []
  | [_] => []
  | a :: b :: r => (a, b) :: toPairs r

/-- The integer pairs a fully valid token list denotes (on valid tokens
`getD` never takes its default). -/
def decodedPairs (parts : List (List Char)) : List (Int × Int) :=
  (toPairs parts).map fun p => ((pyInt p.1).getD 0, (pyInt p.2).getD 0)

/-- Value of the LAST occurrence of pin `k` in a pair sequence, `none`
when `k` never occurs: the last-write-wins reading of the claim. -/
def lastVal (ps : List (Int × Int)) (k : Int) : Option Int :=
  (ps.reverse.find? (fun p => p.1 == k)).map (·.2)

/-- A line whose trimmed non-empty tokens are even in number and all valid
integers. -/
def lineValid (line : List Char) : Bool :=
  (lineTokens line).length % 2 == 0 && (lineTokens line).all (fun t => (pyInt t).isSome)

theorem lastVal_cons (pin v : Int) (ps : List (Int × Int)) (k : Int) :
    lastVal ((pin, v) :: ps) k = (lastVal ps k).or (if k = pin then some v else none) := by
  simp only [lastVal, List.reverse_cons, List.find?_append]
  cases hf : ps.reverse.find? (fun p => p.1 == k) with
  | none =>
    by_cases h : pin = k
    · subst h; simp [Option.orElse, Option.or, List.find?]
    · have h' : ¬ (k = pin) := fun hk => h hk.symm
      have hb : (pin == k) = false := by simp [h]
      simp [Option.orElse, Option.or, List.find?, hb, h']
  | some p =>
    simp [Option.orElse, Option.or]

theorem parseLoop_valid (ts : List (List Char)) (out : PinDict)
    (hv : ∀ t ∈ ts, (pyInt t).isSome) (he : ts.length % 2 = 0) :
    ∃ d, parseLoop ts out = some d ∧
      ∀ k, d k = (lastVal (decodedPairs ts) k).or (out k) := by
  match ts with
  | [] => exact ⟨out, rfl, fun k => by simp [decodedPairs, toPairs, lastVal, Option.or]⟩
  | [a] => simp at he
  | a :: b :: rest =>
    have ha := hv a (by simp)
    have hb := hv b (by simp)
    obtain ⟨pin, hpin⟩ := Option.isSome_iff_exists.mp ha
    obtain ⟨v, hval⟩ := Option.isSome_iff_exists.mp hb
    have he' : rest.length % 2 = 0 := by
      simp only [List.length_cons] at he; omega
    obtain ⟨d, hd, hdk⟩ := parseLoop_valid rest (out.insert pin v)
      (fun t ht => hv t (by simp [ht])) he'
    refine ⟨d, ?_, ?_⟩
    · simpa [parseLoop, hpin, hval] using hd
    · intro k
      rw [hdk k]
      have hdp : decodedPairs (a :: b :: rest) = (pin, v) :: decodedPairs rest := by
        simp [decodedPairs, toPairs, hpin, hval]
      rw [hdp, lastVal_cons]
      simp only [PinDict.insert]
      cases hlv : lastVal (decodedPairs rest) k with
      | some w => simp [Option.or]
      | none =>
        by_cases hk : k = pin <;> simp [Option.or, hk]

theorem parseLoop_invalid (ts : List (List Char)) (out : PinDict)
    (hbad : ∃ t ∈ ts, pyInt t = none) :
    parseLoop ts out = none := by
  match ts with
  | [] => simp at hbad
  | [a] => simp [parseLoop]
  | a :: b :: rest =>
    cases hpa : pyInt a with
    | none => simp [parseLoop, hpa]
    | some pin =>
      cases hpb : pyInt b with
      | none => simp [parseLoop, hpa, hpb]
      | some v =>
        have hrest : ∃ t ∈ rest, pyInt t = none := by
          obtain ⟨t, ht, htn⟩ := hbad
          simp only [List.mem_cons] at ht
          rcases ht with rfl | rfl | ht
          · rw [hpa] at htn; cases htn
          · rw [hpb] at htn; cases htn
          · exact ⟨t, ht, htn⟩
        simp [parseLoop, hpa, hpb, parseLoop_invalid rest _ hrest]

/-- C1: for every input line whose comma-separated, trimmed, non-empty
tokens form an even-length sequence of valid integers, `parse_line`
returns the dictionary mapping each pin to the value of its last
occurrence in the line (last-write-wins); for every line whose non-empty
token count is odd, or with a token that is not a valid integer,
`parse_line` fails with `MalformedLine` (a raised `ValueError`, `none` in
this model). -/
theorem C1_parse_line_last_write_wins (line : List Char) :
    if lineValid line then
      ∃ d, parse_line line = some d ∧
        ∀ k, d k = lastVal (decodedPairs (lineTokens line)) k
    else parse_line line = none := by
  by_cases hval : lineValid line
  · simp only [hval, if_true]
    simp only [lineValid, Bool.and_eq_true, beq_iff_eq, List.all_eq_true] at hval
    obtain ⟨he, hv⟩ := hval
    obtain ⟨d, hd, hdk⟩ := parseLoop_valid (lineTokens line) PinDict.empty
      (fun t ht => hv t ht) he
    refine ⟨d, ?_, fun k => ?_⟩
    · simp [parse_line, he, hd]
    · rw [hdk k]; simp [PinDict.empty, Option.or]
      cases lastVal (decodedPairs (lineTokens line)) k <;> rfl
  · simp only [hval, if_false]
    simp only [lineValid, Bool.and_eq_true, beq_iff_eq, List.all_eq_true, not_and_or] at hval
    rcases hval with he | hv
    · simp [parse_line, he]
    · push_neg at hv
      obtain ⟨t, ht, htn⟩ := hv
      have htn' : pyInt t = none := by
        cases h : pyInt t with
        | none => rfl
        | some v => rw [h] at htn; simp at htn
      by_cases he : (lineTokens line).length % 2 = 0
      · simp [parse_line, he, parseLoop_invalid _ _ ⟨t, ht, htn'⟩]
      · simp [parse_line, he]

/-! ## Pin Sample (`serial_reader.PinStates`) -/

/-- `serial_reader.PinStates`: immutable wrapper around the sparse pin
dictionary. -/
structure PinStates where
  states : PinDict

/-- `PinStates.get(pin, default=None)` with the default left at `None`. -/
def PinStates.get (s : PinStates) (pin : Int) : Option Int := s.states pin

/-- Property `d4`: `states.get(4)`. -/
def PinStates.d4 (s : PinStates) : Option Int := s.states 4

/-- Property `d5`: `states.get(5)`. -/
def PinStates.d5 (s : PinStates) : Option Int := s.states 5

/-- Property `d6`: `states.get(6)`. -/
def PinStates.d6 (s : PinStates) : Option Int := s.states 6

/-- Property `d7`: `states.get(7)`. -/
def PinStates.d7 (s : PinStates) : Option Int := s.states 7

/-! ## Sample Source (`serial_reader.ArduinoPinMonitor`) -/

/-- The underlying `serial.Serial` handle: an open flag and the decoded
text each successive `readline()` call will deliver (`[]` models a read
timeout that returned no bytes).  Byte-to-text decoding with
`errors="replace"` never fails, so lines are modelled post-decoding. -/
structure SerialPort where
  is_open : Bool
  pending : List (List Char)

/-- `serial_reader.ArduinoPinMonitor`: only the `_ser` field matters to
`read_states`/`close`. -/
structure ArduinoPinMonitor where
  ser : Option SerialPort

/-- `self._ser and self._ser.is_open` — the guard of `read_states`. -/
def ArduinoPinMonitor.isOpen (m : ArduinoPinMonitor) : Bool :=
  match m.ser with
  | none => false
  | some p => p.is_open

/-- The decoded text the next `readline()` will return on `m`. -/
def ArduinoPinMonitor.nextRaw (m : ArduinoPinMonitor) : List Char :=
  match m.ser with
  | none => []
  | some p => match p.pending with | [] => [] | r :: _ => r

/-- `ArduinoPinMonitor.close`: drops the handle (`self._ser = None`);
idempotent. -/
def ArduinoPinMonitor.close (m : ArduinoPinMonitor) : ArduinoPinMonitor :=
  match m.ser with
  | none => m
  | some _ => ⟨none⟩

/-- Result of one `read_states()` call. -/
inductive ReadResult where
  | notOpen
  | noData
  | sample (s : PinStates)

/-- `ArduinoPinMonitor.read_states`: `notOpen` models the raised
`RuntimeError`, `noData` models `return None` (timeout, blank line, or a
swallowed `parse_line` exception), `sample` a decoded `PinStates`. -/
def read_states (m : ArduinoPinMonitor) : ReadResult × ArduinoPinMonitor :=
  match m.ser with
  | none => (.notOpen, m)
  | some p =>
    if p.is_open = false then (.notOpen, m)
    else
      let raw := match p.pending with | [] => [] | r :: _ => r
      let m' : ArduinoPinMonitor := ⟨some { p with pending := p.pending.tail }⟩
      if raw = [] then (.noData, m')
      else if pyStrip raw = [] then (.noData, m')
      else
        match parse_line (pyStrip raw) with
        | some d => (.sample ⟨d⟩, m')
        | none => (.noData, m')

/-- C2: `read_states` fails with `NotOpen` exactly when the connection is
not open; when open it reports no data exactly when the read timed out
empty or the line is blank after trimming or the Line Codec failed (the
decode error never reaches the caller), and otherwise returns the decoded
sample. -/
theorem C2_read_states_classification (m : ArduinoPinMonitor) :
    ((read_states m).1 = ReadResult.notOpen ↔ m.isOpen = false)
    ∧ (m.isOpen = true →
        (((read_states m).1 = ReadResult.noData ↔
          pyStrip m.nextRaw = [] ∨ parse_line (pyStrip m.nextRaw) = none)
        ∧ ∀ d, parse_line (pyStrip m.nextRaw) = some d → pyStrip m.nextRaw ≠ [] →
            (read_states m).1 = ReadResult.sample ⟨d⟩)) := by
  obtain ⟨ser⟩ := m
  cases ser with
  | none => simp [read_states, ArduinoPinMonitor.isOpen]
  | some p =>
    cases hop : p.is_open with
    | false => simp [read_states, ArduinoPinMonitor.isOpen, hop]
    | true =>
      cases hpend : p.pending with
      | nil =>
        have hps : pyStrip [] = [] := rfl
        simp [read_states, ArduinoPinMonitor.isOpen, ArduinoPinMonitor.nextRaw, hop, hpend, hps]
      | cons r rest =>
        simp only [read_states, ArduinoPinMonitor.isOpen, ArduinoPinMonitor.nextRaw, hop, hpend,
          Bool.true_eq_false, if_false]
        by_cases hraw : r = []
        · subst hraw
          have hps : pyStrip ([] : List Char) = [] := rfl
          simp [hps]
        · simp only [hraw, if_false]
          by_cases hline : pyStrip r = []
          · simp [hline]
          · simp only [hline, if_false]
            cases hp : parse_line (pyStrip r) with
            | none => simp [hline, hp]
            | some d => simp [hline, hp]

/-- Witness for C2 at a concrete open monitor whose next line is `"4,1"`. -/
theorem C2_read_states_classification_witness :
    (read_states ⟨some ⟨true, [['4', ',', '1']]⟩⟩).1
      = ReadResult.sample ⟨PinDict.empty.insert 4 1⟩ := by
  have h := (C2_read_states_classification ⟨some ⟨true, [['4', ',', '1']]⟩⟩).2 rfl
  exact h.2 (PinDict.empty.insert 4 1) rfl (by decide)

/-! ## Decimal rendering lemmas -/

theorem natToCharsAux_fuel (n : Nat) : ∀ fuel fuel' acc, n < fuel → n < fuel' →
    natToCharsAux fuel n acc = natToCharsAux fuel' n acc := by
  induction n using Nat.strong_induction_on with
  | _ n ih =>
    intro fuel fuel' acc hf hf'
    match fuel, fuel', hf, hf' with
    | f + 1, f' + 1, hf, hf' =>
      by_cases h : n < 10
      · simp [natToCharsAux, h]
      · simp only [natToCharsAux, h, if_false]
        have hlt : n / 10 < n := Nat.div_lt_self (by omega) (by omega)
        exact ih _ hlt f f' _ (by omega) (by omega)

theorem natToCharsAux_acc (n : Nat) : ∀ fuel acc, n < fuel →
    natToCharsAux fuel n acc = natToCharsAux fuel n [] ++ acc := by
  induction n using Nat.strong_induction_on with
  | _ n ih =>
    intro fuel acc hf
    match fuel, hf with
    | f + 1, hf =>
      by_cases h : n < 10
      · simp [natToCharsAux, h]
      · simp only [natToCharsAux, h, if_false]
        have hlt : n / 10 < n := Nat.div_lt_self (by omega) (by omega)
        have hfx : n / 10 < f := by omega
        rw [ih _ hlt f _ hfx, ih _ hlt f [dchar (n % 10)] hfx]
        simp

theorem natToCharsAux_succ (f n : Nat) (acc : List Char) :
    natToCharsAux (f + 1) n acc =
      if n < 10 then dchar (n % 10) :: acc
      else natToCharsAux f (n / 10) (dchar (n % 10) :: acc) := rfl

theorem natToChars_eq (n : Nat) :
    natToChars n =
      if n < 10 then [dchar (n % 10)] else natToChars (n / 10) ++ [dchar (n % 10)] := by
  rw [natToChars, natToCharsAux_succ]
  by_cases h : n < 10
  · simp [h]
  · simp only [h, if_false]
    rw [natToCharsAux_fuel (n / 10) n (n / 10 + 1) _ (by omega) (by omega),
      natToCharsAux_acc (n / 10) _ _ (by omega)]
    rfl

theorem dchar_isDigit (d : Nat) (h : d < 10) : (dchar d).isDigit = true := by
  revert h; revert d; decide

theorem dchar_toNat (d : Nat) (h : d < 10) : (dchar d).toNat = 48 + d := by
  revert h; revert d; decide

theorem natToChars_all_digits (n : Nat) : ∀ c ∈ natToChars n, c.isDigit = true := by
  induction n using Nat.strong_induction_on with
  | _ n ih =>
    rw [natToChars_eq]
    by_cases h : n < 10
    · simp only [h, if_true, List.mem_singleton]
      rintro c rfl
      exact dchar_isDigit _ (Nat.mod_lt _ (by omega))
    · simp only [h, if_false, List.mem_append, List.mem_singleton]
      rintro c (hc | rfl)
      · exact ih _ (Nat.div_lt_self (by omega) (by omega)) c hc
      · exact dchar_isDigit _ (Nat.mod_lt _ (by omega))

theorem natToChars_ne_nil (n : Nat) : natToChars n ≠ [] := by
  rw [natToChars_eq]
  by_cases h : n < 10 <;> simp [h]

theorem natToChars_length_le (k : Nat) : ∀ n, 1 ≤ k → n < 10 ^ k →
    (natToChars n).length ≤ k := by
  induction k with
  | zero => omega
  | succ k ih =>
    intro n _ hn
    rw [natToChars_eq]
    by_cases h : n < 10
    · simp [h]
    · have hk : 1 ≤ k := by
        by_contra hk
        have : k = 0 := by omega
        subst this
        simp at hn
        omega
      have hdiv : n / 10 < 10 ^ k := by
        rw [Nat.div_lt_iff_lt_mul (by omega)]
        calc n < 10 ^ (k + 1) := hn
        _ = 10 ^ k * 10 := by ring
      simp only [h, if_false, List.length_append, List.length_singleton]
      have := ih (n / 10) hk hdiv
      omega

theorem charsToNat_append (l1 l2 : List Char) :
    charsToNat (l1 ++ l2) =
      l2.foldl (fun a c => a * 10 + (c.toNat - 48)) (charsToNat l1) := by
  simp [charsToNat, List.foldl_append]

theorem charsToNat_natToChars (n : Nat) : charsToNat (natToChars n) = n := by
  induction n using Nat.strong_induction_on with
  | _ n ih =>
    rw [natToChars_eq]
    by_cases h : n < 10
    · simp only [h, if_true]
      have hd := dchar_toNat (n % 10) (Nat.mod_lt n (by omega))
      simp [charsToNat, List.foldl, hd]
      omega
    · simp only [h, if_false]
      rw [charsToNat_append, List.foldl_cons, List.foldl_nil,
        ih (n / 10) (Nat.div_lt_self (by omega) (by omega)),
        dchar_toNat _ (Nat.mod_lt n (by omega))]
      omega

theorem padZ_length (k n : Nat) (hk : 1 ≤ k) (hn : n < 10 ^ k) :
    (padZ k n).length = k := by
  have := natToChars_length_le k n hk hn
  simp [padZ]
  omega

theorem padZ_all_digits (k n : Nat) : ∀ c ∈ padZ k n, c.isDigit = true := by
  intro c hc
  simp only [padZ, List.mem_append, List.mem_replicate] at hc
  rcases hc with ⟨_, rfl⟩ | hc
  · decide
  · exact natToChars_all_digits n c hc

theorem charsToNat_zeros_append (m : Nat) (l : List Char) :
    charsToNat (List.replicate m '0' ++ l) = charsToNat l := by
  induction m with
  | zero => simp
  | succ m ih =>
    simp only [List.replicate_succ, List.cons_append]
    show charsToNat (List.replicate m '0' ++ l) = _
    exact ih

theorem charsToNat_padZ (k n : Nat) : charsToNat (padZ k n) = n := by
  rw [padZ, charsToNat_zeros_append, charsToNat_natToChars]

/-! ## UTC timestamps (`json_logger.PinSampleJSONLogger.now_iso_utc`) -/

/-- A `datetime.datetime` value in `timezone.utc` (only the fields
`isoformat` prints). -/
structure DateTime where
  year : Nat
  month : Nat
  day : Nat
  hour : Nat
  minute : Nat
  second : Nat
  microsecond : Nat

/-- The range invariants `datetime` enforces on construction (day bounds
relaxed to 31 — month lengths do not matter to formatting). -/
def DateTime.valid (t : DateTime) : Bool :=
  1 ≤ t.year && t.year ≤ 9999 && 1 ≤ t.month && t.month ≤ 12 &&
  1 ≤ t.day && t.day ≤ 31 && t.hour ≤ 23 && t.minute ≤ 59 &&
  t.second ≤ 59 && t.microsecond ≤ 999999

/-- Model of `datetime.isoformat()` on a `timezone.utc`-aware value:
`YYYY-MM-DDTHH:MM:SS[.ffffff]+00:00`, where the fractional part is
omitted when `microsecond` is 0 (the stdlib's `timespec='auto'`). -/
def isoformat (t : DateTime) : List Char :=
  padZ 4 t.year ++ '-' :: (padZ 2 t.month ++ '-' :: (padZ 2 t.day ++
    'T' :: (padZ 2 t.hour ++ ':' :: (padZ 2 t.minute ++ ':' :: (padZ 2 t.second ++
      (if t.microsecond = 0 then [] else '.' :: padZ 6 t.microsecond) ++ "+00:00".data)))))

/-- Model of Python `str.replace(pat, rep)` for a nonempty pattern:
replaces non-overlapping occurrences left to right. -/
def replaceAll (pat rep : List Char) : List Char → List Char
  | [] => []
  | c :: cs =>
    if pat.isPrefixOf (c :: cs) ∧ pat ≠ [] then
      rep ++ replaceAll pat rep ((c :: cs).drop pat.length)
    else c :: replaceAll pat rep cs
termination_by cs => cs.length
decreasing_by
  · rename_i h
    have : pat.length ≠ 0 := fun hl => h.2 (List.eq_nil_of_length_eq_zero hl)
    simp
    omega
  · simp

/-- `PinSampleJSONLogger.now_iso_utc` applied to the wall-clock reading
`t`: `datetime.now(timezone.utc).isoformat().replace("+00:00", "Z")`. -/
def now_iso_utc (t : DateTime) : List Char :=
  replaceAll "+00:00".data "Z".data (isoformat t)

theorem replaceAll_head_notin (p0 : Char) (prest rep base : List Char)
    (hb : p0 ∉ base) :
    replaceAll (p0 :: prest) rep (base ++ p0 :: prest) = base ++ rep := by
  induction base with
  | nil =>
    rw [List.nil_append, replaceAll]
    have hself : ∀ l : List Char, l.isPrefixOf l = true := by
      intro l
      induction l with
      | nil => rfl
      | cons c cs ih => simp [List.isPrefixOf, ih]
    have hpre : (p0 :: prest).isPrefixOf (p0 :: prest) = true := hself _
    simp [hpre, List.drop_length, replaceAll]
  | cons c base ih =>
    have hc : c ≠ p0 := fun h => hb (h ▸ List.mem_cons_self c _)
    rw [List.cons_append, replaceAll]
    have hpre : (p0 :: prest).isPrefixOf (c :: (base ++ p0 :: prest)) = false := by
      simp [List.isPrefixOf, Ne.symm hc]
    simp only [hpre, false_and, if_false]
    rw [ih (fun h => hb (List.mem_cons_of_mem c h))]
    simp

/-- The timestamp body before the UTC offset. -/
def isoBase (t : DateTime) : List Char :=
  padZ 4 t.year ++ '-' :: (padZ 2 t.month ++ '-' :: (padZ 2 t.day ++
    'T' :: (padZ 2 t.hour ++ ':' :: (padZ 2 t.minute ++ ':' :: (padZ 2 t.second ++
      (if t.microsecond = 0 then [] else '.' :: padZ 6 t.microsecond))))))

theorem isoformat_eq_base (t : DateTime) :
    isoformat t = isoBase t ++ "+00:00".data := by
  simp [isoformat, isoBase]

theorem isDigit_ne_plus (c : Char) (h : c.isDigit = true) : c ≠ '+' := by
  intro hc
  rw [hc] at h
  exact absurd h (by decide)

theorem isoBase_chars (t : DateTime) :
    ∀ c ∈ isoBase t, c.isDigit = true ∨ c = '-' ∨ c = 'T' ∨ c = ':' ∨ c = '.' := by
  intro c hc
  by_cases hm : t.microsecond = 0
  · simp only [isoBase, hm, if_true, List.append_nil, List.mem_append,
      List.mem_cons] at hc
    rcases hc with h | h | h | h | h | h | h | h | h | h | h <;>
      first
        | exact Or.inl (padZ_all_digits _ _ _ h)
        | (subst h; simp)
  · simp only [isoBase, hm, if_false, List.mem_append, List.mem_cons] at hc
    rcases hc with h | h | h | h | h | h | h | h | h | h | h | h | h <;>
      first
        | exact Or.inl (padZ_all_digits _ _ _ h)
        | (subst h; simp)

theorem plus_notin_isoBase (t : DateTime) : '+' ∉ isoBase t := by
  intro hmem
  rcases isoBase_chars t '+' hmem with hd | h | h | h | h
  · exact absurd hd (by decide)
  all_goals exact absurd h (by decide)

theorem now_iso_utc_eq (t : DateTime) : now_iso_utc t = isoBase t ++ ['Z'] := by
  rw [now_iso_utc, isoformat_eq_base]
  exact replaceAll_head_notin '+' "00:00".data "Z".data (isoBase t)
    (plus_notin_isoBase t)

/-! ## ISO-8601 shape checker (specification side, for C3) -/

/-- Consume exactly `k` decimal digit characters. -/
def chompDigits : Nat → List Char → Option (List Char)
  | 0, cs => some cs
  | _ + 1, [] => none
  | k + 1, c :: cs => if c.isDigit then chompDigits k cs else none

/-- Consume one expected literal character. -/
def chompLit (ch : Char) : List Char → Option (List Char)
  | [] => none
  | c :: cs => if c = ch then some cs else none

/-- Shape `YYYY-MM-DDTHH:MM:SS.ffffffZ`: ISO-8601 UTC with microsecond
precision and a literal `Z` suffix. -/
def isIsoMicroZ (cs : List Char) : Bool :=
  ((((((((((((((chompDigits 4 cs).bind (chompLit '-')).bind
    (chompDigits 2)).bind (chompLit '-')).bind (chompDigits 2)).bind
    (chompLit 'T')).bind (chompDigits 2)).bind (chompLit ':')).bind
    (chompDigits 2)).bind (chompLit ':')).bind (chompDigits 2)).bind
    (chompLit '.')).bind (chompDigits 6)).bind (chompLit 'Z')) == some []

/-- Shape `YYYY-MM-DDTHH:MM:SS[.ffffff]Z`: ISO-8601 UTC with a literal
`Z` suffix, the six-digit fractional part optional — the two shapes
`now_iso_utc` can produce. -/
def isIsoZ (cs : List Char) : Bool :=
  (((((((((((chompDigits 4 cs).bind (chompLit '-')).bind
    (chompDigits 2)).bind (chompLit '-')).bind (chompDigits 2)).bind
    (chompLit 'T')).bind (chompDigits 2)).bind (chompLit ':')).bind
    (chompDigits 2)).bind (chompLit ':')).bind (chompDigits 2)).bind
    (fun rest =>
      match rest with
      | ['Z'] => some []
      | '.' :: rest' => (chompDigits 6 rest').bind (chompLit 'Z')
      | _ => none) == some []

theorem chompDigits_exact (l rest : List Char) (hd : ∀ c ∈ l, c.isDigit = true) :
    chompDigits l.length (l ++ rest) = some rest := by
  induction l with
  | nil => rfl
  | cons c l ih =>
    simp only [List.length_cons, List.cons_append, chompDigits,
      hd c (List.mem_cons_self c l), if_true]
    exact ih fun x hx => hd x (List.mem_cons_of_mem c hx)

theorem chompLit_cons (ch : Char) (rest : List Char) :
    chompLit ch (ch :: rest) = some rest := by
  simp [chompLit]

theorem isIsoMicroZ_now_iso_utc (t : DateTime) (hv : t.valid = true)
    (hm : t.microsecond ≠ 0) : isIsoMicroZ (now_iso_utc t) = true := by
  simp only [DateTime.valid, Bool.and_eq_true, decide_eq_true_eq] at hv
  obtain ⟨⟨⟨⟨⟨⟨⟨⟨⟨hy1, hy2⟩, hm1⟩, hm2⟩, hd1⟩, hd2⟩, hh⟩, hmi⟩, hs⟩, hus⟩ := hv
  rw [now_iso_utc_eq, isoBase]
  simp only [hm, if_false]
  have e4 : ∀ n, n < 10000 → ∀ rest, chompDigits 4 (padZ 4 n ++ rest) = some rest := by
    intro n hn rest
    have h := chompDigits_exact (padZ 4 n) rest (padZ_all_digits 4 n)
    rwa [padZ_length 4 n (by omega) (by norm_num; omega)] at h
  have e2 : ∀ n, n < 100 → ∀ rest, chompDigits 2 (padZ 2 n ++ rest) = some rest := by
    intro n hn rest
    have h := chompDigits_exact (padZ 2 n) rest (padZ_all_digits 2 n)
    rwa [padZ_length 2 n (by omega) (by norm_num; omega)] at h
  have e6 : ∀ n, n < 1000000 → ∀ rest, chompDigits 6 (padZ 6 n ++ rest) = some rest := by
    intro n hn rest
    have h := chompDigits_exact (padZ 6 n) rest (padZ_all_digits 6 n)
    rwa [padZ_length 6 n (by omega) (by norm_num; omega)] at h
  simp only [isIsoMicroZ]
  simp only [List.append_assoc, List.cons_append]
  simp only [e4 t.year (by omega), e2 t.month (by omega), e2 t.day (by omega),
    e2 t.hour (by omega), e2 t.minute (by omega), e2 t.second (by omega),
    e6 t.microsecond (by omega), chompLit_cons, Option.some_bind]
  rfl

theorem isIsoZ_now_iso_utc (t : DateTime) (hv : t.valid = true) :
    isIsoZ (now_iso_utc t) = true := by
  simp only [DateTime.valid, Bool.and_eq_true, decide_eq_true_eq] at hv
  obtain ⟨⟨⟨⟨⟨⟨⟨⟨⟨hy1, hy2⟩, hm1⟩, hm2⟩, hd1⟩, hd2⟩, hh⟩, hmi⟩, hs⟩, hus⟩ := hv
  rw [now_iso_utc_eq, isoBase]
  have e4 : ∀ n, n < 10000 → ∀ rest, chompDigits 4 (padZ 4 n ++ rest) = some rest := by
    intro n hn rest
    have h := chompDigits_exact (padZ 4 n) rest (padZ_all_digits 4 n)
    rwa [padZ_length 4 n (by omega) (by norm_num; omega)] at h
  have e2 : ∀ n, n < 100 → ∀ rest, chompDigits 2 (padZ 2 n ++ rest) = some rest := by
    intro n hn rest
    have h := chompDigits_exact (padZ 2 n) rest (padZ_all_digits 2 n)
    rwa [padZ_length 2 n (by omega) (by norm_num; omega)] at h
  have e6 : ∀ n, n < 1000000 → ∀ rest, chompDigits 6 (padZ 6 n ++ rest) = some rest := by
    intro n hn rest
    have h := chompDigits_exact (padZ 6 n) rest (padZ_all_digits 6 n)
    rwa [padZ_length 6 n (by omega) (by norm_num; omega)] at h
  by_cases hm : t.microsecond = 0
  · simp only [hm, if_true, List.append_nil]
    simp only [isIsoZ]
    simp only [List.append_assoc, List.cons_append]
    simp only [e4 t.year (by omega), e2 t.month (by omega), e2 t.day (by omega),
      e2 t.hour (by omega), e2 t.minute (by omega), e2 t.second (by omega),
      Option.some_bind, chompLit_cons]
    rfl
  · simp only [hm, if_false]
    simp only [isIsoZ]
    simp only [List.append_assoc, List.cons_append]
    simp only [e4 t.year (by omega), e2 t.month (by omega), e2 t.day (by omega),
      e2 t.hour (by omega), e2 t.minute (by omega), e2 t.second (by omega),
      e6 t.microsecond (by omega), Option.some_bind, chompLit_cons]
    rfl

/-! ## JSON serialization (the fragment of `json.dumps` the logger uses) -/

/-- Opening brace character. -/
def lbrace : Char := '\x7b'

/-- Closing brace character. -/
def rbrace : Char := '\x7d'

/-- JSON values occurring in a log record: the string timestamp, integer
pin states, and `null` for absent pins. -/
inductive JVal where
  | jnull
  | jint (v : Int)
  | jstr (s : List Char)

/-- Lowercase hexadecimal digit. -/
def hexDigitChar (n : Nat) : Char :=
  if n < 10 then Char.ofNat (48 + n) else Char.ofNat (87 + n)

/-- Four-digit lowercase hex, as in `\uXXXX`. -/
def hex4 (n : Nat) : List Char :=
  [hexDigitChar (n / 4096 % 16), hexDigitChar (n / 256 % 16),
   hexDigitChar (n / 16 % 16), hexDigitChar (n % 16)]

/-- Model of `json.dumps` string escaping (default `ensure_ascii=True`):
quote, backslash and the named control characters get two-character
escapes, other control and all non-ASCII characters get `\uXXXX` (astral
code points as a surrogate pair), everything else is itself. -/
def jsonEscapeChar (c : Char) : List Char :=
  if c = '"' then ['\\', '"']
  else if c = '\\' then ['\\', '\\']
  else if c = '\n' then ['\\', 'n']
  else if c = '\r' then ['\\', 'r']
  else if c = '\t' then ['\\', 't']
  else if c.toNat = 8 then ['\\', 'b']
  else if c.toNat = 12 then ['\\', 'f']
  else if c.toNat < 32 ∨ 126 < c.toNat then
    if c.toNat < 65536 then '\\' :: 'u' :: hex4 c.toNat
    else
      '\\' :: 'u' :: hex4 (55296 + (c.toNat - 65536) / 1024) ++
        '\\' :: 'u' :: hex4 (56320 + (c.toNat - 65536) % 1024)
  else [c]

/-- Escape every character of a string body. -/
def jsonEscape : List Char → List Char
  | [] => []
  | c :: cs => jsonEscapeChar c ++ jsonEscape cs

/-- Serialize one JSON value (`json.dumps` on `None`/`int`/`str`). -/
def renderJVal : JVal → List Char
  | .jnull => "null".data
  | .jint v => intToChars v
  | .jstr s => '"' :: (jsonEscape s ++ ['"'])

/-- Interpose a separator character between list elements. -/
def joinSep (sep : Char) : List (List Char) → List Char
  | [] => []
  | [x] => x
  | x :: y :: xs => x ++ sep :: joinSep sep (y :: xs)

/-- Model of `json.dumps(obj, separators=(",", ":"))` for a flat dict,
members in insertion order (Python dicts preserve it). -/
def dumpsObj (members : List (List Char × JVal)) : List Char :=
  lbrace :: (joinSep ','
    (members.map fun m => '"' :: (jsonEscape m.1 ++ '"' :: ':' :: renderJVal m.2))
    ++ [rbrace])

/-! ## Append Log (`json_logger.PinSampleJSONLogger`) -/

/-- The opened file: durably stored content and the not-yet-flushed
buffer of the text handle. -/
structure FileState where
  content : List Char
  buffer : List Char

/-- `json_logger.PinSampleJSONLogger` with its `JSONLogConfig`: the flush
cadence, whether `_fh` is set, the `_count_since_flush` counter, and the
file the handle writes to (kept also after close, as the durable file).
`open` is append-mode, so a fresh run continues an existing `content`. -/
structure PinSampleJSONLogger where
  flush_every : Int
  isOpen : Bool
  count_since_flush : Nat
  file : FileState

/-- Python `None` → `null`, present value → JSON integer. -/
def optJ : Option Int → JVal
  | none => .jnull
  | some v => .jint v

/-- The `rec` dict `write_sample` builds: keys in insertion order
`ts_utc, d4, d5, d6, d7`. -/
def recordMembers (ts : List Char) (s : PinStates) : List (List Char × JVal) :=
  [("ts_utc".data, JVal.jstr ts), ("d4".data, optJ s.d4),
    ("d5".data, optJ s.d5), ("d6".data, optJ s.d6), ("d7".data, optJ s.d7)]

/-- The exact chunk `write_sample` hands to `self._fh.write`: the record
object plus `"\n"`. -/
def sampleRecord (ts : List Char) (s : PinStates) : List Char :=
  dumpsObj (recordMembers ts s) ++ ['\n']

/-- `PinSampleJSONLogger.write_sample`; `now` is the wall-clock reading
`now_iso_utc` would format when no (or a falsy empty) timestamp argument
is supplied; `none` models the `RuntimeError` raised when not open. -/
def write_sample (lg : PinSampleJSONLogger) (states : PinStates)
    (ts_utc : Option (List Char)) (now : DateTime) : Option PinSampleJSONLogger :=
  if lg.isOpen = false then none
  else
    let ts := match ts_utc with
      | some s => if s = [] then now_iso_utc now else s
      | none => now_iso_utc now
    let buf := lg.file.buffer ++ sampleRecord ts states
    let n := lg.count_since_flush + 1
    if 0 < lg.flush_every ∧ lg.flush_every ≤ (n : Int) then
      some { lg with file := ⟨lg.file.content ++ buf, []⟩, count_since_flush := 0 }
    else
      some { lg with file := ⟨lg.file.content, buf⟩, count_since_flush := n }

/-- `PinSampleJSONLogger.close`: flush then drop the handle; idempotent. -/
def PinSampleJSONLogger.close (lg : PinSampleJSONLogger) : PinSampleJSONLogger :=
  if lg.isOpen then
    { lg with isOpen := false, file := ⟨lg.file.content ++ lg.file.buffer, []⟩ }
  else lg

/-! ## C3: record format -/

theorem isDigit_toNat_range (c : Char) (h : c.isDigit = true) :
    48 ≤ c.toNat ∧ c.toNat ≤ 57 := by
  simp [Char.isDigit] at h
  exact h

theorem jsonEscapeChar_plain (c : Char)
    (h1 : 32 ≤ c.toNat) (h2 : c.toNat ≤ 126) (hq : c.toNat ≠ 34) (hb : c.toNat ≠ 92) :
    jsonEscapeChar c = [c] := by
  have e1 : c ≠ '"' := fun h => hq (by rw [h]; rfl)
  have e2 : c ≠ '\\' := fun h => hb (by rw [h]; rfl)
  have e3 : c ≠ '\n' := fun h => by rw [h] at h1; exact absurd h1 (by decide)
  have e4 : c ≠ '\r' := fun h => by rw [h] at h1; exact absurd h1 (by decide)
  have e5 : c ≠ '\t' := fun h => by rw [h] at h1; exact absurd h1 (by decide)
  have e6 : c.toNat ≠ 8 := by omega
  have e7 : c.toNat ≠ 12 := by omega
  have e8 : ¬(c.toNat < 32 ∨ 126 < c.toNat) := by omega
  simp [jsonEscapeChar, e1, e2, e3, e4, e5, e6, e7, e8]

theorem jsonEscape_eq_self (l : List Char)
    (h : ∀ c ∈ l, 32 ≤ c.toNat ∧ c.toNat ≤ 126 ∧ c.toNat ≠ 34 ∧ c.toNat ≠ 92) :
    jsonEscape l = l := by
  induction l with
  | nil => rfl
  | cons c cs ih =>
    obtain ⟨h1, h2, h3, h4⟩ := h c (List.mem_cons_self c cs)
    rw [jsonEscape, jsonEscapeChar_plain c h1 h2 h3 h4,
      ih fun x hx => h x (List.mem_cons_of_mem c hx)]
    rfl

theorem now_iso_chars (t : DateTime) :
    ∀ c ∈ now_iso_utc t, 32 ≤ c.toNat ∧ c.toNat ≤ 126 ∧ c.toNat ≠ 34 ∧ c.toNat ≠ 92 := by
  intro c hc
  rw [now_iso_utc_eq] at hc
  rcases List.mem_append.mp hc with h | h
  · rcases isoBase_chars t c h with hd | rfl | rfl | rfl | rfl
    · have := isDigit_toNat_range c hd
      refine ⟨by omega, by omega, by omega, by omega⟩
    all_goals exact ⟨by decide, by decide, by decide, by decide⟩
  · rw [List.mem_singleton] at h
    subst h
    exact ⟨by decide, by decide, by decide, by decide⟩

theorem jsonEscape_now_iso (t : DateTime) :
    jsonEscape (now_iso_utc t) = now_iso_utc t :=
  jsonEscape_eq_self _ (now_iso_chars t)

theorem newline_notin_now_iso (t : DateTime) : '\n' ∉ now_iso_utc t := by
  intro h
  have := (now_iso_chars t '\n' h).1
  exact absurd this (by decide)

theorem renderJVal_binary (o : Option Int) (h : ∀ v, o = some v → v = 0 ∨ v = 1) :
    renderJVal (optJ o) = "0".data ∨ renderJVal (optJ o) = "1".data ∨
      renderJVal (optJ o) = "null".data := by
  match o with
  | none => exact Or.inr (Or.inr rfl)
  | some v =>
    rcases h v rfl with rfl | rfl
    · exact Or.inl (by decide)
    · exact Or.inr (Or.inl (by decide))

theorem sampleRecord_shape (ts : List Char) (s : PinStates) (hts : jsonEscape ts = ts) :
    sampleRecord ts s =
      "\x7b\"ts_utc\":\"".data ++ ts ++ "\",\"d4\":".data ++ renderJVal (optJ s.d4)
        ++ ",\"d5\":".data ++ renderJVal (optJ s.d5) ++ ",\"d6\":".data
        ++ renderJVal (optJ s.d6) ++ ",\"d7\":".data ++ renderJVal (optJ s.d7)
        ++ "\x7d".data ++ ['\n'] := by
  have hk1 : jsonEscape "ts_utc".data = "ts_utc".data := by decide
  have hk2 : jsonEscape "d4".data = "d4".data := by decide
  have hk3 : jsonEscape "d5".data = "d5".data := by decide
  have hk4 : jsonEscape "d6".data = "d6".data := by decide
  have hk5 : jsonEscape "d7".data = "d7".data := by decide
  have s1 : "\x7b\"ts_utc\":\"".data
      = ['\x7b', '"', 't', 's', '_', 'u', 't', 'c', '"', ':', '"'] := by decide
  have s2 : "\",\"d4\":".data = ['"', ',', '"', 'd', '4', '"', ':'] := by decide
  have s3 : ",\"d5\":".data = [',', '"', 'd', '5', '"', ':'] := by decide
  have s4 : ",\"d6\":".data = [',', '"', 'd', '6', '"', ':'] := by decide
  have s5 : ",\"d7\":".data = [',', '"', 'd', '7', '"', ':'] := by decide
  have s6 : "\x7d".data = ['\x7d'] := by decide
  have s7 : "ts_utc".data = ['t', 's', '_', 'u', 't', 'c'] := by decide
  have s8 : "d4".data = ['d', '4'] := by decide
  have s9 : "d5".data = ['d', '5'] := by decide
  have s10 : "d6".data = ['d', '6'] := by decide
  have s11 : "d7".data = ['d', '7'] := by decide
  simp only [sampleRecord, recordMembers, dumpsObj, List.map, joinSep, renderJVal,
    hk1, hk2, hk3, hk4, hk5, hts, lbrace, rbrace, s1, s2, s3, s4, s5, s6, s7, s8, s9,
    s10, s11]
  simp [List.append_assoc]

/-- C3 counterexample: when the captured wall-clock instant has
microsecond component 0, the `isoformat`-based timestamp carries no
fractional part at all, so the written `ts_utc` does not have microsecond
precision as the claim states for every record. -/
theorem C3_counterexample_zero_microsecond :
    now_iso_utc ⟨2026, 1, 13, 4, 32, 10, 0⟩ = "2026-01-13T04:32:10Z".data
    ∧ isIsoMicroZ "2026-01-13T04:32:10Z".data = false
    ∧ (write_sample ⟨1, true, 0, ⟨[], []⟩⟩ ⟨fun _ => none⟩ none ⟨2026, 1, 13, 4, 32, 10, 0⟩).map
        (fun lg => lg.file.content ++ lg.file.buffer)
      = some ("\x7b\"ts_utc\":\"2026-01-13T04:32:10Z\",\"d4\":null,\"d5\":null,\"d6\":null,\"d7\":null\x7d\n".data) := by
  have hts : now_iso_utc ⟨2026, 1, 13, 4, 32, 10, 0⟩ = "2026-01-13T04:32:10Z".data := by
    rw [now_iso_utc_eq]; decide
  refine ⟨hts, by decide, ?_⟩
  simp only [write_sample, hts]
  decide

/-- C3 (amended): every record written by `write_sample` with an
auto-assigned timestamp is one newline-terminated line of compact JSON
with keys in the fixed order `ts_utc, d4, d5, d6, d7`; `ts_utc` is an
ISO-8601 UTC timestamp with a literal `Z` suffix, with microsecond
precision whenever the captured microsecond component is nonzero (the
stdlib omits the fractional part when it is zero); each pin field is the
integer 0, the integer 1, or `null` when the pin is absent, for binary
samples. -/
theorem C3_write_sample_record_format (lg : PinSampleJSONLogger) (s : PinStates)
    (now : DateTime) (hopen : lg.isOpen = true) (hv : now.valid = true)
    (hbin : ∀ p v, s.states p = some v → v = 0 ∨ v = 1) :
    ∃ lg', write_sample lg s none now = some lg' ∧
      lg'.file.content ++ lg'.file.buffer
        = lg.file.content ++ lg.file.buffer ++ sampleRecord (now_iso_utc now) s ∧
      sampleRecord (now_iso_utc now) s
        = "\x7b\"ts_utc\":\"".data ++ now_iso_utc now ++ "\",\"d4\":".data
            ++ renderJVal (optJ s.d4) ++ ",\"d5\":".data ++ renderJVal (optJ s.d5)
            ++ ",\"d6\":".data ++ renderJVal (optJ s.d6) ++ ",\"d7\":".data
            ++ renderJVal (optJ s.d7) ++ "\x7d".data ++ ['\n'] ∧
      isIsoZ (now_iso_utc now) = true ∧
      (now.microsecond ≠ 0 → isIsoMicroZ (now_iso_utc now) = true) ∧
      (∀ o ∈ [s.d4, s.d5, s.d6, s.d7],
        renderJVal (optJ o) = "0".data ∨ renderJVal (optJ o) = "1".data ∨
          renderJVal (optJ o) = "null".data) ∧
      '\n' ∉ (sampleRecord (now_iso_utc now) s).dropLast := by
  have hshape := sampleRecord_shape (now_iso_utc now) s (jsonEscape_now_iso now)
  have hfield : ∀ o ∈ [s.d4, s.d5, s.d6, s.d7],
      renderJVal (optJ o) = "0".data ∨ renderJVal (optJ o) = "1".data ∨
        renderJVal (optJ o) = "null".data := by
    intro o ho
    simp only [List.mem_cons, List.mem_singleton] at ho
    rcases ho with rfl | rfl | rfl | rfl | h
    · exact renderJVal_binary _ fun v hv => hbin 4 v hv
    · exact renderJVal_binary _ fun v hv => hbin 5 v hv
    · exact renderJVal_binary _ fun v hv => hbin 6 v hv
    · exact renderJVal_binary _ fun v hv => hbin 7 v hv
    · simp at h
  have hnl : '\n' ∉ (sampleRecord (now_iso_utc now) s).dropLast := by
    rw [hshape, List.dropLast_concat]
    intro hmem
    simp only [List.mem_append] at hmem
    have hfd : ∀ o ∈ [s.d4, s.d5, s.d6, s.d7], '\n' ∉ renderJVal (optJ o) := by
      intro o ho hin
      rcases hfield o ho with h | h | h <;> rw [h] at hin <;> exact absurd hin (by decide)
    rcases hmem with ((((((((((h | h) | h) | h) | h) | h) | h) | h) | h) | h) | h)
    · exact absurd h (by decide)
    · exact newline_notin_now_iso now h
    · exact absurd h (by decide)
    · exact hfd s.d4 (by simp) h
    · exact absurd h (by decide)
    · exact hfd s.d5 (by simp) h
    · exact absurd h (by decide)
    · exact hfd s.d6 (by simp) h
    · exact absurd h (by decide)
    · exact hfd s.d7 (by simp) h
    · exact absurd h (by decide)
  by_cases hfl : 0 < lg.flush_every ∧ lg.flush_every ≤ (lg.count_since_flush : Int) + 1
  · refine ⟨{ lg with
        file := ⟨lg.file.content ++ (lg.file.buffer ++ sampleRecord (now_iso_utc now) s), []⟩,
        count_since_flush := 0 }, ?_, ?_,
      hshape, isIsoZ_now_iso_utc now hv,
      fun hm => isIsoMicroZ_now_iso_utc now hv hm, hfield, hnl⟩
    · simp [write_sample, hopen, hfl]
    · simp [List.append_assoc]
  · refine ⟨{ lg with
        file := ⟨lg.file.content, lg.file.buffer ++ sampleRecord (now_iso_utc now) s⟩,
        count_since_flush := lg.count_since_flush + 1 }, ?_, ?_,
      hshape, isIsoZ_now_iso_utc now hv,
      fun hm => isIsoMicroZ_now_iso_utc now hv hm, hfield, hnl⟩
    · simp [write_sample, hopen, hfl]
    · simp [List.append_assoc]

/-- Concrete sample `{4: 1}` used by witnesses. -/
def exSample : PinStates := ⟨fun k => if k = 4 then some 1 else none⟩

/-- Concrete wall-clock instant with nonzero microseconds. -/
def exTime : DateTime := ⟨2026, 1, 13, 4, 32, 10, 123456⟩

/-- Witness for C3: the record written for `{4: 1}` at the example
instant, on a freshly opened flush-every-write logger. -/
theorem C3_write_sample_record_format_witness :
    (write_sample ⟨1, true, 0, ⟨[], []⟩⟩ exSample none exTime).map
        (fun lg => lg.file.content ++ lg.file.buffer)
      = some ("\x7b\"ts_utc\":\"2026-01-13T04:32:10.123456Z\",\"d4\":1,\"d5\":null,\"d6\":null,\"d7\":null\x7d\n".data) := by
  obtain ⟨lg', hw, hstream, hshape, _, _, _, _⟩ :=
    C3_write_sample_record_format ⟨1, true, 0, ⟨[], []⟩⟩ exSample exTime rfl (by decide)
      (by
        intro p v h
        simp only [exSample] at h
        by_cases hp : p = 4
        · simp [hp] at h
          omega
        · simp [hp] at h)
  have hts : now_iso_utc exTime = "2026-01-13T04:32:10.123456Z".data := by
    rw [now_iso_utc_eq]; decide
  rw [hw]
  simp only [Option.map]
  rw [hstream, hshape, hts]
  decide

/-! ## C4: flush cadence -/

/-- Successive `write_sample` calls with auto-assigned timestamps, each
paired with the wall-clock reading at its call. -/
def writeMany (lg : PinSampleJSONLogger) :
    List (PinStates × DateTime) → Option PinSampleJSONLogger
  | [] => some lg
  | (s, t) :: rest => (write_sample lg s none t).bind fun lg' => writeMany lg' rest

/-- The record chunks those calls hand to the file handle. -/
def autoRecords (xs : List (PinStates × DateTime)) : List (List Char) :=
  xs.map fun p => sampleRecord (now_iso_utc p.2) p.1

theorem write_sample_step (lg : PinSampleJSONLogger) (s : PinStates) (t : DateTime)
    (hopen : lg.isOpen = true) :
    write_sample lg s none t =
      if 0 < lg.flush_every ∧ lg.flush_every ≤ (lg.count_since_flush : Int) + 1 then
        some { lg with
          file := ⟨lg.file.content ++ lg.file.buffer ++ sampleRecord (now_iso_utc t) s, []⟩,
          count_since_flush := 0 }
      else
        some { lg with
          file := ⟨lg.file.content, lg.file.buffer ++ sampleRecord (now_iso_utc t) s⟩,
          count_since_flush := lg.count_since_flush + 1 } := by
  by_cases hfl : 0 < lg.flush_every ∧ lg.flush_every ≤ (lg.count_since_flush : Int) + 1 <;>
    simp [write_sample, hopen, hfl, List.append_assoc]

theorem writeMany_append (lg : PinSampleJSONLogger)
    (l1 l2 : List (PinStates × DateTime)) :
    writeMany lg (l1 ++ l2) = (writeMany lg l1).bind fun lg' => writeMany lg' l2 := by
  induction l1 generalizing lg with
  | nil => simp [writeMany]
  | cons x l1 ih =>
    obtain ⟨s, t⟩ := x
    simp only [List.cons_append, writeMany]
    cases write_sample lg s none t with
    | none => simp
    | some lg' => simp [ih lg']

theorem writeMany_take_pos (N : Nat) (hN : 0 < N) (c0 : List Char)
    (xs : List (PinStates × DateTime)) :
    ∀ i, i ≤ xs.length →
      writeMany ⟨(N : Int), true, 0, ⟨c0, []⟩⟩ (xs.take i)
        = some ⟨(N : Int), true, i % N,
            ⟨c0 ++ ((autoRecords xs).take (N * (i / N))).flatten,
             (((autoRecords xs).take i).drop (N * (i / N))).flatten⟩⟩ := by
  intro i hi
  induction i with
  | zero => simp [writeMany, Nat.zero_mod, Nat.zero_div]
  | succ i ih =>
    have hi' : i ≤ xs.length := by omega
    have hstep := ih hi'
    have hlen : (autoRecords xs).length = xs.length := by simp [autoRecords]
    have hgetr : (autoRecords xs)[i]? = some (sampleRecord (now_iso_utc (xs.get ⟨i, by omega⟩).2) (xs.get ⟨i, by omega⟩).1) := by
      rw [List.getElem?_eq_getElem (by omega)]
      simp [autoRecords]
    have htake : xs.take (i + 1) = xs.take i ++ [xs.get ⟨i, by omega⟩] := by
      rw [List.take_succ, List.getElem?_eq_getElem (by omega)]
      rfl
    have htaker : (autoRecords xs).take (i + 1)
        = (autoRecords xs).take i
          ++ [sampleRecord (now_iso_utc (xs.get ⟨i, by omega⟩).2) (xs.get ⟨i, by omega⟩).1] := by
      rw [List.take_succ, hgetr]
      rfl
    rw [htake, writeMany_append, hstep, Option.some_bind]
    set r := sampleRecord (now_iso_utc (xs.get ⟨i, by omega⟩).2) (xs.get ⟨i, by omega⟩).1 with hr
    have hmodlt : i % N < N := Nat.mod_lt _ hN
    have hdivle : N * (i / N) ≤ i := by
      rw [Nat.mul_comm]
      exact Nat.div_mul_le_self i N
    have hjoin : ((autoRecords xs).take (N * (i / N))).flatten
        ++ (((autoRecords xs).take i).drop (N * (i / N))).flatten
        = ((autoRecords xs).take i).flatten := by
      rw [show (autoRecords xs).take (N * (i / N))
          = ((autoRecords xs).take i).take (N * (i / N)) by
        rw [List.take_take]
        congr 1
        exact (min_eq_left hdivle).symm]
      rw [← List.flatten_append, List.take_append_drop]
    simp only [writeMany]
    rw [write_sample_step _ _ _ rfl]
    have h1 := Nat.div_add_mod i N
    by_cases hcase : i % N + 1 = N
    · have hcond : (0 : Int) < (N : Int) ∧ (N : Int) ≤ ((i % N : Nat) : Int) + 1 := by
        constructor
        · exact_mod_cast hN
        · exact_mod_cast Nat.le_of_eq hcase.symm
      have hdvd : N ∣ (i + 1) := by
        refine ⟨i / N + 1, ?_⟩
        have h2 : N * (i / N + 1) = N * (i / N) + N := by ring
        omega
      obtain ⟨q, hq⟩ := hdvd
      have e1 : (i + 1) % N = 0 := by rw [hq, Nat.mul_mod_right]
      have e2 : N * ((i + 1) / N) = i + 1 := by
        rw [hq, Nat.mul_div_cancel_left q hN]
      rw [if_pos hcond]
      refine congrArg some ?_
      have e3 : (((autoRecords xs).take (i + 1)).drop (N * ((i + 1) / N))).flatten
          = ([] : List Char) := by
        rw [e2, List.drop_eq_nil_of_le (by rw [List.length_take]; omega)]
        rfl
      have e4 : ((autoRecords xs).take (N * ((i + 1) / N))).flatten
          = ((autoRecords xs).take i).flatten ++ r := by
        rw [e2, htaker, List.flatten_append]
        simp
      simp only [e1, e3, e4, ← hjoin]
      simp [List.append_assoc]
      rfl
    · have hlt : i % N + 1 < N := by omega
      have hN2 : 2 ≤ N := by omega
      have hcond : ¬((0 : Int) < (N : Int) ∧ (N : Int) ≤ ((i % N : Nat) : Int) + 1) := by
        rintro ⟨-, hle⟩
        have : N ≤ i % N + 1 := by exact_mod_cast hle
        omega
      have e1 : (i + 1) % N = i % N + 1 := by
        rw [Nat.add_mod, Nat.mod_eq_of_lt (show 1 < N by omega),
          Nat.mod_eq_of_lt hlt]
      have e2 : (i + 1) / N = i / N := by
        rw [Nat.succ_div, if_neg, Nat.add_zero]
        intro hdvd
        obtain ⟨q, hq⟩ := hdvd
        have : (i + 1) % N = 0 := by rw [hq, Nat.mul_mod_right]
        omega
      rw [if_neg hcond]
      refine congrArg some ?_
      have e3 : (((autoRecords xs).take (i + 1)).drop (N * (i / N))).flatten
          = (((autoRecords xs).take i).drop (N * (i / N))).flatten ++ r := by
        rw [htaker, List.drop_append_of_le_length
          (by rw [List.length_take]; omega), List.flatten_append]
        simp
      simp only [e1, e2, e3]

theorem writeMany_nonpos_aux (xs : List (PinStates × DateTime)) :
    ∀ lg : PinSampleJSONLogger, lg.isOpen = true → lg.flush_every ≤ 0 →
      writeMany lg xs
        = some { lg with
            count_since_flush := lg.count_since_flush + xs.length,
            file := ⟨lg.file.content, lg.file.buffer ++ (autoRecords xs).flatten⟩ } := by
  induction xs with
  | nil =>
    intro lg hopen _
    simp [writeMany, autoRecords]
  | cons x rest ih =>
    intro lg hopen hle
    obtain ⟨s, t⟩ := x
    have hcond : ¬(0 < lg.flush_every ∧
        lg.flush_every ≤ (lg.count_since_flush : Int) + 1) := by
      rintro ⟨h, -⟩
      omega
    rw [writeMany, write_sample_step lg s t hopen, if_neg hcond, Option.some_bind,
      ih { flush_every := lg.flush_every, isOpen := lg.isOpen,
           count_since_flush := lg.count_since_flush + 1,
           file := ⟨lg.file.content,
             lg.file.buffer ++ sampleRecord (now_iso_utc t) s⟩ } hopen hle]
    refine congrArg some ?_
    simp only [autoRecords, List.map_cons, List.flatten_cons]
    rw [show lg.count_since_flush + 1 + rest.length
        = lg.count_since_flush + (rest.length + 1) from by omega]
    simp [List.append_assoc, autoRecords]

theorem flatten_take_drop (L : List (List Char)) (a k : Nat) (hak : a ≤ k) :
    (L.take a).flatten ++ ((L.take k).drop a).flatten = (L.take k).flatten := by
  rw [show L.take a = (L.take k).take a by
    rw [List.take_take]
    congr 1
    exact (min_eq_left hak).symm]
  rw [← List.flatten_append, List.take_append_drop]

/-- C4: starting from a freshly opened Append Log over file content `c0`,
with `flush_every = N > 0` the durable content after `i` successful
writes is exactly the first `N * (i / N)` records and the internal
counter is `i % N` — the output is forced to durable storage exactly
after every `N`-th write and never more frequently, with the counter
reset on each flush; with `flush_every ≤ 0` nothing is flushed until
`close()`; and `close()` always flushes the remaining buffer, leaving the
full record sequence durable. -/
theorem C4_flush_cadence (F : Int) (c0 : List Char)
    (xs : List (PinStates × DateTime)) :
    (∀ N : Nat, F = (N : Int) → 0 < N → ∀ i, i ≤ xs.length →
      writeMany ⟨F, true, 0, ⟨c0, []⟩⟩ (xs.take i)
        = some ⟨F, true, i % N,
            ⟨c0 ++ ((autoRecords xs).take (N * (i / N))).flatten,
             (((autoRecords xs).take i).drop (N * (i / N))).flatten⟩⟩)
    ∧ (F ≤ 0 →
        writeMany ⟨F, true, 0, ⟨c0, []⟩⟩ xs
          = some ⟨F, true, xs.length, ⟨c0, (autoRecords xs).flatten⟩⟩)
    ∧ (∀ lg', writeMany ⟨F, true, 0, ⟨c0, []⟩⟩ xs = some lg' →
        lg'.close.file.content = c0 ++ (autoRecords xs).flatten
          ∧ lg'.close.file.buffer = [] ∧ lg'.close.isOpen = false) := by
  have hlen : (autoRecords xs).length = xs.length := by simp [autoRecords]
  refine ⟨?_, ?_, ?_⟩
  · rintro N rfl hN i hi
    exact writeMany_take_pos N hN c0 xs i hi
  · intro hle
    rw [writeMany_nonpos_aux xs _ rfl hle]
    simp
  · intro lg' hw
    by_cases hpos : 0 < F
    · have hFN : F = ((F.toNat : Nat) : Int) := (Int.toNat_of_nonneg (by omega)).symm
      have hNpos : 0 < F.toNat := by omega
      rw [hFN] at hw
      have h2 := writeMany_take_pos F.toNat hNpos c0 xs xs.length (le_refl _)
      rw [List.take_length] at h2
      rw [hw] at h2
      obtain rfl := Option.some.inj h2
      have hale : F.toNat * (xs.length / F.toNat) ≤ xs.length := by
        rw [Nat.mul_comm]
        exact Nat.div_mul_le_self _ _
      have hfull : (autoRecords xs).take xs.length = autoRecords xs := by
        rw [← hlen, List.take_length]
      refine ⟨?_, by simp [PinSampleJSONLogger.close],
        by simp [PinSampleJSONLogger.close]⟩
      simp only [PinSampleJSONLogger.close, if_true]
      show c0 ++ ((autoRecords xs).take (F.toNat * (xs.length / F.toNat))).flatten
          ++ (((autoRecords xs).take xs.length).drop
            (F.toNat * (xs.length / F.toNat))).flatten
        = c0 ++ (autoRecords xs).flatten
      rw [List.append_assoc, flatten_take_drop _ _ _ hale, hfull]
    · have hle : F ≤ 0 := by omega
      have h2 := writeMany_nonpos_aux xs ⟨F, true, 0, ⟨c0, []⟩⟩ rfl hle
      rw [hw] at h2
      obtain rfl := Option.some.inj h2
      exact ⟨by simp [PinSampleJSONLogger.close], by simp [PinSampleJSONLogger.close],
        by simp [PinSampleJSONLogger.close]⟩

/-- Three writes used by the C4 witness. -/
def exRun : List (PinStates × DateTime) := [(exSample, exTime), (exSample, exTime), (exSample, exTime)]

/-- Witness for C4 at `flush_every = 2` and three writes: after the third
write the counter is `3 % 2 = 1` and exactly the first two records are
durable. -/
theorem C4_flush_cadence_witness :
    writeMany ⟨(2 : Int), true, 0, ⟨[], []⟩⟩ (exRun.take 3)
      = some ⟨(2 : Int), true, 3 % 2,
          ⟨[] ++ ((autoRecords exRun).take (2 * (3 / 2))).flatten,
           (((autoRecords exRun).take 3).drop (2 * (3 / 2))).flatten⟩⟩ :=
  (C4_flush_cadence 2 [] exRun).1 2 rfl (by decide) 3 (by decide)

/-! ## Log reader (`plot_pins.read_ndjson`) -/

/-- Scan a JSON string body after the opening quote, up to the closing
quote.  Models `json.loads` string decoding restricted to escape-free
bodies (the only ones this system writes); an escape makes the model
fail rather than decode. -/
def scanJString : List Char → Option (List Char × List Char)
  | [] => none
  | '"' :: rest => some ([], rest)
  | '\\' :: _ => none
  | c :: rest => (scanJString rest).map fun p => (c :: p.1, p.2)

/-- Maximal run of digits, accumulating a value. -/
def scanDigitsAux (acc : Nat) : List Char → Nat × List Char
  | [] => (acc, [])
  | c :: rest =>
    if c.isDigit then scanDigitsAux (acc * 10 + (c.toNat - 48)) rest
    else (acc, c :: rest)

/-- Scan a JSON integer (optional minus, digit run).  Models the number
grammar of `json.loads` restricted to the integers this system writes
(no fractions or exponents). -/
def scanJInt : List Char → Option (Int × List Char)
  | '-' :: c :: rest =>
    if c.isDigit then
      let p := scanDigitsAux (c.toNat - 48) rest
      some (-(p.1 : Int), p.2)
    else none
  | c :: rest =>
    if c.isDigit then
      let p := scanDigitsAux (c.toNat - 48) rest
      some ((p.1 : Int), p.2)
    else none
  | [] => none

/-- Scan one JSON value of the record fragment: `null`, a string, or an
integer. -/
def scanJVal (cs : List Char) : Option (JVal × List Char) :=
  match cs with
  | 'n' :: 'u' :: 'l' :: 'l' :: rest => some (.jnull, rest)
  | '"' :: rest => (scanJString rest).map fun p => (.jstr p.1, p.2)
  | _ => (scanJInt cs).map fun p => (.jint p.1, p.2)

/-- Scan the members of a nonempty object after the opening brace; the
first argument is recursion fuel (the caller passes more fuel than
members, so exhaustion is never hit on well-formed input). -/
def scanMembers : Nat → List Char → Option (List (List Char × JVal) × List Char)
  | 0, _ => none
  | fuel + 1, cs =>
    match cs with
    | '"' :: rest =>
      match scanJString rest with
      | none => none
      | some (key, rest) =>
        match rest with
        | ':' :: rest =>
          match scanJVal rest with
          | none => none
          | some (v, rest) =>
            match rest with
            | ',' :: rest' =>
              (scanMembers fuel rest').map fun p => ((key, v) :: p.1, p.2)
            | '\x7d' :: rest' => some ([(key, v)], rest')
            | _ => none
        | _ => none
    | _ => none

/-- Model of `json.loads` on the compact one-line objects this system
writes (no insignificant whitespace, string keys, values `null`/int/
string); returns the member list in document order; `none` models a
raised decode error. -/
def loads (cs : List Char) : Option (List (List Char × JVal)) :=
  match cs with
  | '\x7b' :: '\x7d' :: rest => if rest = [] then some [] else none
  | '\x7b' :: rest =>
    match scanMembers (rest.length + 1) rest with
    | some (ms, []) => some ms
    | _ => none
  | _ => none

/-- Python dict lookup built from parsed members: the LAST occurrence of
a duplicated key wins, absence gives `None`. -/
def pyGet (ms : List (List Char × JVal)) (k : List Char) : Option JVal :=
  (ms.reverse.find? (fun m => m.1 == k)).map (·.2)

/-- Exactly `k` digits, with their value. -/
def scanFixedNatAux : Nat → Nat → List Char → Option (Nat × List Char)
  | 0, acc, cs => some (acc, cs)
  | _ + 1, _, [] => none
  | k + 1, acc, c :: cs =>
    if c.isDigit then scanFixedNatAux k (acc * 10 + (c.toNat - 48)) cs else none

/-- Exactly `k` digits starting from value 0. -/
def scanFixedNat (k : Nat) (cs : List Char) : Option (Nat × List Char) :=
  scanFixedNatAux k 0 cs

/-- Modelled from the stdlib: `datetime.fromisoformat` restricted to the
forms this system produces — `YYYY-MM-DDTHH:MM:SS`, optional `.ffffff`,
optional `+00:00` offset — with the constructor's range validation. -/
def pyFromIsoformat (cs : List Char) : Option DateTime :=
  (scanFixedNat 4 cs).bind fun py =>
  (chompLit '-' py.2).bind fun cs =>
  (scanFixedNat 2 cs).bind fun pmo =>
  (chompLit '-' pmo.2).bind fun cs =>
  (scanFixedNat 2 cs).bind fun pd =>
  (chompLit 'T' pd.2).bind fun cs =>
  (scanFixedNat 2 cs).bind fun ph =>
  (chompLit ':' ph.2).bind fun cs =>
  (scanFixedNat 2 cs).bind fun pmi =>
  (chompLit ':' pmi.2).bind fun cs =>
  (scanFixedNat 2 cs).bind fun ps =>
  (match ps.2 with
   | '.' :: cs' => scanFixedNat 6 cs'
   | cs' => some (0, cs')).bind fun pus =>
  (match pus.2 with
   | [] => some ()
   | '+' :: '0' :: '0' :: ':' :: '0' :: '0' :: [] => some ()
   | _ => none).bind fun _ =>
    let t : DateTime := ⟨py.1, pmo.1, pd.1, ph.1, pmi.1, ps.1, pus.1⟩
    if t.valid then some t else none

/-- `plot_pins._parse_ts`: a trailing `Z` is rewritten to `+00:00`, then
`fromisoformat` (the final `astimezone(utc)` is the identity on the
zero-offset values the model accepts). -/
def parse_ts (ts : List Char) : Option DateTime :=
  if ts.getLast? = some 'Z' then pyFromIsoformat (ts.dropLast ++ "+00:00".data)
  else pyFromIsoformat ts

/-- `plot_pins.Sample`. -/
structure Sample where
  t : DateTime
  d4 : Option Int
  d5 : Option Int
  d6 : Option Int
  d7 : Option Int

/-- `rec.get(key)` narrowed to a pin state: a JSON integer gives the
value; `null` and a missing key both give `None` (that is exactly what
`dict.get` with the default returns). -/
def pinField (ms : List (List Char × JVal)) (k : List Char) : Option Int :=
  match pyGet ms k with
  | some (.jint v) => some v
  | _ => none

/-- Parse one non-blank log line into a `Sample`; `none` models any
exception swallowed by the reader's per-line `try` (decode error,
missing/ill-typed `ts_utc`). -/
def readRecordLine (line : List Char) : Option Sample :=
  (loads line).bind fun ms =>
  (pyGet ms "ts_utc".data).bind fun tv =>
  (match tv with
   | .jstr s => parse_ts s
   | _ => none).map fun t =>
    ⟨t, pinField ms "d4".data, pinField ms "d5".data,
      pinField ms "d6".data, pinField ms "d7".data⟩

/-- Mixed-radix key realizing Python's field-lexicographic `datetime`
comparison on in-range values; the reader sorts by this key. -/
def dtKey (t : DateTime) : Nat :=
  ((((((t.year * 13 + t.month) * 32 + t.day) * 24 + t.hour) * 60 + t.minute) * 60
    + t.second) * 1000000 + t.microsecond)

/-- Stable insertion into a sorted list: a new element goes before the
first strictly-later element, after earlier-or-equal ones. -/
def sortInsert (x : Sample) : List Sample → List Sample
  | [] => [x]
  | y :: ys => if dtKey x.t ≤ dtKey y.t then x :: y :: ys else y :: sortInsert x ys

/-- Stable ascending sort by timestamp, as Python's `list.sort(key=...)`
behaves observably. -/
def sortByT : List Sample → List Sample
  | [] => []
  | x :: xs => sortInsert x (sortByT xs)

/-- The per-line body of `read_ndjson`'s loop: strip, skip blanks, parse. -/
def lineParse (l : List Char) : Option Sample :=
  if pyStrip l = [] then none else readRecordLine (pyStrip l)

/-- `plot_pins.read_ndjson` with no `since_seconds` cutoff, applied to
file content: iterate lines, strip, skip blanks, parse each line keeping
successes, sort by timestamp. -/
def read_ndjson (content : List Char) : List Sample :=
  sortByT ((splitOnChar '\n' content).filterMap lineParse)

/-! ## Round-trip lemmas: scanning inverts rendering -/

/-- The scan of a digit run stops here. -/
def headNondigit : List Char → Prop
  | [] => True
  | c :: _ => c.isDigit = false

theorem scanJString_append (body rest : List Char)
    (h : ∀ c ∈ body, c ≠ '"' ∧ c ≠ '\\') :
    scanJString (body ++ '"' :: rest) = some (body, rest) := by
  induction body with
  | nil => rfl
  | cons c cs ih =>
    obtain ⟨hq, hb⟩ := h c (List.mem_cons_self c cs)
    rw [List.cons_append, scanJString.eq_def]
    split
    · rename_i heq
      simp at heq
    · rename_i heq
      injection heq with h1 _
      exact absurd h1 hq
    · rename_i heq
      injection heq with h1 _
      exact absurd h1 hb
    · rename_i c' rest' heq
      injection heq with h1 h2
      subst h1
      rw [← h2, ih fun x hx => h x (List.mem_cons_of_mem c hx)]
      rfl

theorem scanDigitsAux_append (l : List Char) :
    ∀ (acc : Nat) (rest : List Char), (∀ c ∈ l, c.isDigit = true) → headNondigit rest →
      scanDigitsAux acc (l ++ rest)
        = (l.foldl (fun a c => a * 10 + (c.toNat - 48)) acc, rest) := by
  induction l with
  | nil =>
    intro acc rest _ hrest
    match rest, hrest with
    | [], _ => rfl
    | c :: rest, hrest =>
      have hc : c.isDigit = false := hrest
      simp [scanDigitsAux, hc]
  | cons c cs ih =>
    intro acc rest hall hrest
    rw [List.cons_append, scanDigitsAux, if_pos (hall c (List.mem_cons_self c cs))]
    rw [ih _ rest (fun x hx => hall x (List.mem_cons_of_mem c hx)) hrest]
    rfl

theorem natToChars_head_digit (n : Nat) :
    ∃ c cs, natToChars n = c :: cs ∧ c.isDigit = true ∧ ∀ x ∈ cs, x.isDigit = true := by
  have hne := natToChars_ne_nil n
  have hall := natToChars_all_digits n
  match h : natToChars n with
  | [] => exact absurd h hne
  | c :: cs =>
    refine ⟨c, cs, rfl, hall c (by rw [h]; exact List.mem_cons_self c cs), ?_⟩
    intro x hx
    exact hall x (by rw [h]; exact List.mem_cons_of_mem c hx)

theorem foldl_digit_val (l : List Char) (acc : Nat) :
    l.foldl (fun a c => a * 10 + (c.toNat - 48)) acc
      = acc * 10 ^ l.length + charsToNat l := by
  induction l generalizing acc with
  | nil => simp [charsToNat]
  | cons c cs ih =>
    rw [List.foldl_cons, ih]
    have h0 : charsToNat (c :: cs) = (c.toNat - 48) * 10 ^ cs.length + charsToNat cs := by
      rw [charsToNat, List.foldl_cons, ih (0 * 10 + (c.toNat - 48))]
      ring_nf
    rw [h0, List.length_cons, pow_succ]
    ring

theorem scanJInt_natToChars (n : Nat) (rest : List Char) (hrest : headNondigit rest) :
    scanJInt (natToChars n ++ rest) = some ((n : Int), rest) := by
  obtain ⟨c, cs, heq, hc, hcs⟩ := natToChars_head_digit n
  have hne : c ≠ '-' := by
    intro h
    rw [h] at hc
    exact absurd hc (by decide)
  rw [heq, List.cons_append, scanJInt.eq_def]
  split
  · rename_i heq2
    injection heq2 with h1 _
    exact absurd h1 hne
  · rename_i c' rest' heq2
    injection heq2 with h1 h2
    subst h1
    rw [← h2, if_pos hc, scanDigitsAux_append cs _ rest hcs hrest]
    have hval : charsToNat (c :: cs) = n := by rw [← heq, charsToNat_natToChars]
    have hfold : cs.foldl (fun a x => a * 10 + (x.toNat - 48)) (c.toNat - 48) = n := by
      rw [foldl_digit_val]
      rw [charsToNat, List.foldl_cons, foldl_digit_val] at hval
      simpa using hval
    simp [hfold]
  · rename_i heq2
    simp at heq2

theorem scanJInt_intToChars (v : Int) (rest : List Char) (hrest : headNondigit rest) :
    scanJInt (intToChars v ++ rest) = some (v, rest) := by
  by_cases hneg : v < 0
  · rw [intToChars, if_pos hneg, List.cons_append]
    obtain ⟨c, cs, heq, hc, hcs⟩ := natToChars_head_digit (-v).toNat
    rw [heq, List.cons_append, scanJInt]
    rw [if_pos hc, scanDigitsAux_append cs _ rest hcs hrest]
    have hval : charsToNat (c :: cs) = (-v).toNat := by rw [← heq, charsToNat_natToChars]
    have hfold : cs.foldl (fun a x => a * 10 + (x.toNat - 48)) (c.toNat - 48) = (-v).toNat := by
      rw [foldl_digit_val]
      rw [charsToNat, List.foldl_cons, foldl_digit_val] at hval
      simpa using hval
    simp only [hfold]
    have : -(((-v).toNat : Nat) : Int) = v := by omega
    rw [this]
  · rw [intToChars, if_neg hneg]
    rw [scanJInt_natToChars _ _ hrest]
    have : ((v.toNat : Nat) : Int) = v := by omega
    rw [this]

/-- Values whose rendering the modelled scanner inverts: `null`, any
integer, and strings whose body needs no escaping. -/
def goodVal : JVal → Prop
  | .jnull => True
  | .jint _ => True
  | .jstr s => jsonEscape s = s ∧ ∀ c ∈ s, c ≠ '"' ∧ c ≠ '\\'

theorem scanJVal_render (v : JVal) (hv : goodVal v) (rest : List Char)
    (hrest : headNondigit rest) :
    scanJVal (renderJVal v ++ rest) = some (v, rest) := by
  match v with
  | .jnull => rfl
  | .jint n =>
    obtain ⟨c, cs', hceq, hcp⟩ :
        ∃ c cs', intToChars n = c :: cs' ∧ (c = '-' ∨ c.isDigit = true) := by
      by_cases hneg : n < 0
      · rw [intToChars, if_pos hneg]
        exact ⟨'-', _, rfl, Or.inl rfl⟩
      · rw [intToChars, if_neg hneg]
        obtain ⟨c, cs, h, hc, _⟩ := natToChars_head_digit n.toNat
        exact ⟨c, cs, h, Or.inr hc⟩
    have hcn : c ≠ 'n' := by
      rcases hcp with rfl | hd
      · decide
      · intro h
        rw [h] at hd
        exact absurd hd (by decide)
    have hcq : c ≠ '"' := by
      rcases hcp with rfl | hd
      · decide
      · intro h
        rw [h] at hd
        exact absurd hd (by decide)
    rw [renderJVal, hceq, List.cons_append, scanJVal.eq_def]
    split
    · rename_i heq
      injection heq with h1 _
      exact absurd h1 hcn
    · rename_i heq
      injection heq with h1 _
      exact absurd h1 hcq
    · rw [← List.cons_append, ← hceq, scanJInt_intToChars n rest hrest]
      rfl
  | .jstr s =>
    obtain ⟨hesc, hnc⟩ := hv
    rw [renderJVal, hesc]
    show (scanJString ((s ++ ['"']) ++ rest)).map _ = _
    rw [List.append_assoc, List.singleton_append, scanJString_append s rest hnc]
    rfl

/-- The serialized form of one object member. -/
def memberRep (m : List Char × JVal) : List Char :=
  '"' :: (jsonEscape m.1 ++ '"' :: ':' :: renderJVal m.2)

/-- A member the modelled scanner inverts. -/
def goodMember (m : List Char × JVal) : Prop :=
  (jsonEscape m.1 = m.1 ∧ ∀ c ∈ m.1, c ≠ '"' ∧ c ≠ '\\') ∧ goodVal m.2

theorem scanMembers_chain (ms : List (List Char × JVal)) :
    ∀ f : Nat, ms ≠ [] → ms.length ≤ f → (∀ m ∈ ms, goodMember m) →
      scanMembers f (joinSep ',' (ms.map memberRep) ++ ['\x7d'])
        = some (ms, []) := by
  match ms with
  | [] => intro _ h; exact absurd rfl h
  | [(k, v)] =>
    intro f _ hf hgood
    match f, hf with
    | f' + 1, _ =>
      obtain ⟨⟨hkesc, hknc⟩, hval⟩ := hgood (k, v) (List.mem_singleton_self _)
      show scanMembers (f' + 1) ('"' :: (jsonEscape k ++ '"' :: ':' :: renderJVal v) ++ ['\x7d']) = _
      rw [hkesc]
      have hassoc : (('"' : Char) :: (k ++ '"' :: ':' :: renderJVal v)) ++ ['\x7d']
          = '"' :: (k ++ '"' :: ':' :: (renderJVal v ++ ['\x7d'])) := by
        simp [List.append_assoc]
      rw [hassoc]
      show scanMembers (f' + 1) _ = _
      rw [scanMembers, scanJString_append k _ hknc]
      simp only [scanJVal_render v hval ['\x7d']
        (show ('\x7d').isDigit = false from by decide)]
  | (k, v) :: m2 :: more =>
    intro f _ hf hgood
    match f, hf with
    | f' + 1, hf =>
      obtain ⟨⟨hkesc, hknc⟩, hval⟩ := hgood (k, v) (List.mem_cons_self _ _)
      have ih := scanMembers_chain (m2 :: more) f' (List.cons_ne_nil _ _)
        (by simp at hf ⊢; omega)
        (fun m hm => hgood m (List.mem_cons_of_mem _ hm))
      show scanMembers (f' + 1)
          ((('"' :: (jsonEscape k ++ '"' :: ':' :: renderJVal v))
            ++ ',' :: joinSep ',' ((m2 :: more).map memberRep)) ++ ['\x7d']) = _
      rw [hkesc]
      have hassoc : ((('"' : Char) :: (k ++ '"' :: ':' :: renderJVal v))
            ++ ',' :: joinSep ',' ((m2 :: more).map memberRep)) ++ ['\x7d']
          = '"' :: (k ++ '"' :: ':' ::
              (renderJVal v ++ ',' :: (joinSep ',' ((m2 :: more).map memberRep) ++ ['\x7d']))) := by
        simp [List.append_assoc]
      rw [hassoc]
      rw [scanMembers, scanJString_append k _ hknc]
      simp only [scanJVal_render v hval
        (',' :: (joinSep ',' ((m2 :: more).map memberRep) ++ ['\x7d']))
        (show (',').isDigit = false from by decide), ih, Option.map]

theorem joinSep_length_ge (ms : List (List Char × JVal)) (hne : ms ≠ []) :
    ms.length ≤ (joinSep ',' (ms.map memberRep)).length := by
  match ms with
  | [] => exact absurd rfl hne
  | [m] => simp [joinSep, memberRep]
  | m :: m2 :: more =>
    have ih := joinSep_length_ge (m2 :: more) (List.cons_ne_nil _ _)
    show (m :: m2 :: more).length
      ≤ (memberRep m ++ ',' :: joinSep ',' ((m2 :: more).map memberRep)).length
    rw [List.length_append, List.length_cons]
    simp only [List.length_cons] at ih ⊢
    have : 1 ≤ (memberRep m).length := by simp [memberRep]
    omega

theorem loads_dumpsObj (ms : List (List Char × JVal)) (hne : ms ≠ [])
    (hgood : ∀ m ∈ ms, goodMember m) :
    loads (dumpsObj ms) = some ms := by
  match ms with
  | [] => exact absurd rfl hne
  | m :: ms' =>
    obtain ⟨T, hT⟩ : ∃ T, joinSep ',' ((m :: ms').map memberRep) = '"' :: T := by
      match ms' with
      | [] =>
        exact ⟨jsonEscape m.1 ++ '"' :: ':' :: renderJVal m.2,
          by simp [joinSep, memberRep]⟩
      | x :: xs =>
        exact ⟨jsonEscape m.1 ++ '"' :: ':' ::
            (renderJVal m.2 ++ ',' :: joinSep ',' ((x :: xs).map memberRep)),
          by simp [joinSep, memberRep, List.append_assoc]⟩
    have hdumps : dumpsObj (m :: ms')
        = '\x7b' :: (joinSep ',' ((m :: ms').map memberRep) ++ ['\x7d']) := rfl
    have hred : dumpsObj (m :: ms') = '\x7b' :: '"' :: (T ++ ['\x7d']) := by
      rw [hdumps, hT]
      simp
    rw [hred]
    have hloads : loads ('\x7b' :: '"' :: (T ++ ['\x7d'])) =
        (match scanMembers (('"' :: (T ++ ['\x7d'])).length + 1) ('"' :: (T ++ ['\x7d'])) with
         | some (ms2, []) => some ms2
         | _ => none) := rfl
    rw [hloads]
    have hchain : scanMembers (('"' :: (T ++ ['\x7d'])).length + 1)
        ('"' :: (T ++ ['\x7d'])) = some (m :: ms', []) := by
      have hch := scanMembers_chain (m :: ms') (('"' :: (T ++ ['\x7d'])).length + 1) hne
        (by
          have hlen := joinSep_length_ge (m :: ms') hne
          rw [hT] at hlen
          simp only [List.length_cons, List.length_append] at hlen ⊢
          omega)
        hgood
      rw [hT, List.cons_append] at hch
      exact hch
    rw [hchain]

/-! ## Timestamp round trip -/

theorem scanFixedNatAux_append (l : List Char) :
    ∀ (k acc : Nat) (rest : List Char), l.length = k → (∀ c ∈ l, c.isDigit = true) →
      scanFixedNatAux k acc (l ++ rest)
        = some (l.foldl (fun a c => a * 10 + (c.toNat - 48)) acc, rest) := by
  induction l with
  | nil =>
    intro k acc rest hk _
    subst hk
    rfl
  | cons c cs ih =>
    intro k acc rest hk hall
    subst hk
    rw [List.cons_append, List.length_cons, scanFixedNatAux,
      if_pos (hall c (List.mem_cons_self c cs)), List.foldl_cons]
    exact ih _ _ rest rfl fun x hx => hall x (List.mem_cons_of_mem c hx)

theorem scanFixedNat_padZ (kk n : Nat) (hk : 1 ≤ kk) (hn : n < 10 ^ kk)
    (rest : List Char) :
    scanFixedNat kk (padZ kk n ++ rest) = some (n, rest) := by
  rw [scanFixedNat,
    scanFixedNatAux_append (padZ kk n) kk 0 rest (padZ_length kk n hk hn)
      (padZ_all_digits kk n)]
  rw [show (padZ kk n).foldl (fun a c => a * 10 + (c.toNat - 48)) 0
      = charsToNat (padZ kk n) from rfl, charsToNat_padZ]

theorem pyFromIsoformat_isoBase (t : DateTime) (hv : t.valid = true) :
    pyFromIsoformat (isoBase t ++ "+00:00".data) = some t := by
  have hb := hv
  simp only [DateTime.valid, Bool.and_eq_true, decide_eq_true_eq] at hb
  obtain ⟨⟨⟨⟨⟨⟨⟨⟨⟨hy1, hy2⟩, hm1⟩, hm2⟩, hd1⟩, hd2⟩, hh⟩, hmi⟩, hs⟩, hus⟩ := hb
  rw [isoBase]
  by_cases hm : t.microsecond = 0
  · simp only [hm, if_true, List.append_nil]
    simp only [List.append_assoc, List.cons_append, List.nil_append]
    rw [pyFromIsoformat,
      scanFixedNat_padZ 4 t.year (by omega) (by norm_num; omega), Option.some_bind,
      chompLit_cons, Option.some_bind,
      scanFixedNat_padZ 2 t.month (by omega) (by norm_num; omega), Option.some_bind,
      chompLit_cons, Option.some_bind,
      scanFixedNat_padZ 2 t.day (by omega) (by norm_num; omega), Option.some_bind,
      chompLit_cons, Option.some_bind,
      scanFixedNat_padZ 2 t.hour (by omega) (by norm_num; omega), Option.some_bind,
      chompLit_cons, Option.some_bind,
      scanFixedNat_padZ 2 t.minute (by omega) (by norm_num; omega), Option.some_bind,
      chompLit_cons, Option.some_bind,
      scanFixedNat_padZ 2 t.second (by omega) (by norm_num; omega), Option.some_bind]
    show (if (DateTime.mk t.year t.month t.day t.hour t.minute t.second 0).valid
        then some (DateTime.mk t.year t.month t.day t.hour t.minute t.second 0)
        else none) = some t
    rw [← hm]
    rw [if_pos hv]
  · simp only [hm, if_false]
    simp only [List.append_assoc, List.cons_append, List.nil_append]
    rw [pyFromIsoformat,
      scanFixedNat_padZ 4 t.year (by omega) (by norm_num; omega), Option.some_bind,
      chompLit_cons, Option.some_bind,
      scanFixedNat_padZ 2 t.month (by omega) (by norm_num; omega), Option.some_bind,
      chompLit_cons, Option.some_bind,
      scanFixedNat_padZ 2 t.day (by omega) (by norm_num; omega), Option.some_bind,
      chompLit_cons, Option.some_bind,
      scanFixedNat_padZ 2 t.hour (by omega) (by norm_num; omega), Option.some_bind,
      chompLit_cons, Option.some_bind,
      scanFixedNat_padZ 2 t.minute (by omega) (by norm_num; omega), Option.some_bind,
      chompLit_cons, Option.some_bind,
      scanFixedNat_padZ 2 t.second (by omega) (by norm_num; omega), Option.some_bind]
    show (scanFixedNat 6 (padZ 6 t.microsecond ++ "+00:00".data)).bind _ = some t
    rw [scanFixedNat_padZ 6 t.microsecond (by omega) (by norm_num; omega),
      Option.some_bind]
    show (if (DateTime.mk t.year t.month t.day t.hour t.minute t.second t.microsecond).valid
        then some (DateTime.mk t.year t.month t.day t.hour t.minute t.second t.microsecond)
        else none) = some t
    rw [if_pos hv]

theorem parse_ts_now_iso (t : DateTime) (hv : t.valid = true) :
    parse_ts (now_iso_utc t) = some t := by
  rw [now_iso_utc_eq, parse_ts, if_pos (List.getLast?_concat _), List.dropLast_concat]
  exact pyFromIsoformat_isoBase t hv

/-! ## Reading one record back -/

theorem pyGet_record_ts (ts : List Char) (s : PinStates) :
    pyGet (recordMembers ts s) "ts_utc".data = some (JVal.jstr ts) := by
  simp [pyGet, recordMembers, List.find?]

theorem pinField_record_d4 (ts : List Char) (s : PinStates) :
    pinField (recordMembers ts s) "d4".data = s.d4 := by
  cases ho : s.d4 <;> simp [pinField, pyGet, recordMembers, List.find?, optJ, ho]

theorem pinField_record_d5 (ts : List Char) (s : PinStates) :
    pinField (recordMembers ts s) "d5".data = s.d5 := by
  cases ho : s.d5 <;> simp [pinField, pyGet, recordMembers, List.find?, optJ, ho]

theorem pinField_record_d6 (ts : List Char) (s : PinStates) :
    pinField (recordMembers ts s) "d6".data = s.d6 := by
  cases ho : s.d6 <;> simp [pinField, pyGet, recordMembers, List.find?, optJ, ho]

theorem pinField_record_d7 (ts : List Char) (s : PinStates) :
    pinField (recordMembers ts s) "d7".data = s.d7 := by
  cases ho : s.d7 <;> simp [pinField, pyGet, recordMembers, List.find?, optJ, ho]

theorem recordMembers_good (t : DateTime) (s : PinStates) :
    ∀ m ∈ recordMembers (now_iso_utc t) s, goodMember m := by
  intro m hm
  have hts : goodVal (JVal.jstr (now_iso_utc t)) := by
    refine ⟨jsonEscape_now_iso t, fun c hc => ?_⟩
    have h := now_iso_chars t c hc
    exact ⟨fun he => h.2.2.1 (by rw [he]; rfl), fun he => h.2.2.2 (by rw [he]; rfl)⟩
  have hopt : ∀ o : Option Int, goodVal (optJ o) := by
    intro o
    cases o <;> simp [optJ, goodVal]
  simp only [recordMembers, List.mem_cons, List.mem_singleton] at hm
  rcases hm with rfl | rfl | rfl | rfl | rfl | h
  · exact ⟨⟨(by decide : jsonEscape "ts_utc".data = "ts_utc".data),
      (by decide : ∀ c ∈ "ts_utc".data, c ≠ '"' ∧ c ≠ '\\')⟩, hts⟩
  · exact ⟨⟨(by decide : jsonEscape "d4".data = "d4".data),
      (by decide : ∀ c ∈ "d4".data, c ≠ '"' ∧ c ≠ '\\')⟩, hopt _⟩
  · exact ⟨⟨(by decide : jsonEscape "d5".data = "d5".data),
      (by decide : ∀ c ∈ "d5".data, c ≠ '"' ∧ c ≠ '\\')⟩, hopt _⟩
  · exact ⟨⟨(by decide : jsonEscape "d6".data = "d6".data),
      (by decide : ∀ c ∈ "d6".data, c ≠ '"' ∧ c ≠ '\\')⟩, hopt _⟩
  · exact ⟨⟨(by decide : jsonEscape "d7".data = "d7".data),
      (by decide : ∀ c ∈ "d7".data, c ≠ '"' ∧ c ≠ '\\')⟩, hopt _⟩
  · simp at h

theorem readRecordLine_record (s : PinStates) (t : DateTime) (hv : t.valid = true) :
    readRecordLine (dumpsObj (recordMembers (now_iso_utc t) s))
      = some ⟨t, s.states 4, s.states 5, s.states 6, s.states 7⟩ := by
  rw [readRecordLine,
    loads_dumpsObj (recordMembers (now_iso_utc t) s) (by simp [recordMembers])
      (recordMembers_good t s),
    Option.some_bind, pyGet_record_ts, Option.some_bind]
  show (parse_ts (now_iso_utc t)).map _ = _
  rw [parse_ts_now_iso t hv]
  rw [Option.map]
  rw [pinField_record_d4, pinField_record_d5, pinField_record_d6, pinField_record_d7]
  rfl

/-! ## File content: splitting, stripping and sorting -/

theorem splitOnChar_ne_nil (sep : Char) (l : List Char) : splitOnChar sep l ≠ [] := by
  induction l with
  | nil => simp [splitOnChar]
  | cons c cs ih =>
    rw [splitOnChar]
    cases h : splitOnChar sep cs with
    | nil => simp
    | cons t ts =>
      by_cases hc : c = sep <;> simp [hc]

theorem splitOnChar_append_sep (sep : Char) (b rest : List Char) (hb : sep ∉ b) :
    splitOnChar sep (b ++ sep :: rest) = b :: splitOnChar sep rest := by
  induction b with
  | nil =>
    rw [List.nil_append, splitOnChar]
    cases h : splitOnChar sep rest with
    | nil => exact absurd h (splitOnChar_ne_nil sep rest)
    | cons t ts => simp [← h]
  | cons c b' ih =>
    have hc : c ≠ sep := fun h => hb (h ▸ List.mem_cons_self c b')
    rw [List.cons_append, splitOnChar,
      ih fun h => hb (List.mem_cons_of_mem c h)]
    simp [hc]

theorem splitOnChar_flatten (sep : Char) (B : List (List Char))
    (h : ∀ b ∈ B, sep ∉ b) :
    splitOnChar sep ((B.map (· ++ [sep])).flatten) = B ++ [[]] := by
  induction B with
  | nil => rfl
  | cons b Bs ih =>
    rw [List.map_cons, List.flatten_cons, List.append_assoc, List.singleton_append,
      splitOnChar_append_sep sep b _ (h b (List.mem_cons_self b Bs)),
      ih fun x hx => h x (List.mem_cons_of_mem b hx)]
    rfl

theorem dropWhile_eq_self_of (p : Char → Bool) (l : List Char)
    (h : ∀ c ∈ l, p c = false) : l.dropWhile p = l := by
  cases l with
  | nil => rfl
  | cons c cs => simp [List.dropWhile_cons, h c (List.mem_cons_self c cs)]

theorem pyStrip_eq_self (l : List Char) (h : ∀ c ∈ l, c.isWhitespace = false) :
    pyStrip l = l := by
  rw [pyStrip, dropWhile_eq_self_of _ l h,
    dropWhile_eq_self_of _ l.reverse (fun c hc => h c (List.mem_reverse.mp hc)),
    List.reverse_reverse]

theorem joinSep_chars (sep : Char) (L : List (List Char)) :
    ∀ c ∈ joinSep sep L, c = sep ∨ ∃ l ∈ L, c ∈ l := by
  match L with
  | [] => intro c hc; simp [joinSep] at hc
  | [x] =>
    intro c hc
    exact Or.inr ⟨x, List.mem_singleton_self x, hc⟩
  | x :: y :: xs =>
    intro c hc
    rw [joinSep] at hc
    rcases List.mem_append.mp hc with h | h
    · exact Or.inr ⟨x, List.mem_cons_self _ _, h⟩
    · rcases List.mem_cons.mp h with rfl | h
      · exact Or.inl rfl
      · rcases joinSep_chars sep (y :: xs) c h with h | ⟨l, hl, hcl⟩
        · exact Or.inl h
        · exact Or.inr ⟨l, List.mem_cons_of_mem x hl, hcl⟩

theorem intToChars_chars (v : Int) :
    ∀ c ∈ intToChars v, c.isDigit = true ∨ c = '-' := by
  intro c hc
  rw [intToChars] at hc
  by_cases hneg : v < 0
  · rw [if_pos hneg] at hc
    rcases List.mem_cons.mp hc with rfl | h
    · exact Or.inr rfl
    · exact Or.inl (natToChars_all_digits _ c h)
  · rw [if_neg hneg] at hc
    exact Or.inl (natToChars_all_digits _ c hc)

theorem not_ws_of_ge_33 (x : Char) (h : 33 ≤ x.toNat) : x.isWhitespace = false := by
  have h1 : x ≠ ' ' := fun he => by rw [he] at h; exact absurd h (by decide)
  have h2 : x ≠ '\t' := fun he => by rw [he] at h; exact absurd h (by decide)
  have h3 : x ≠ '\n' := fun he => by rw [he] at h; exact absurd h (by decide)
  have h4 : x ≠ '\r' := fun he => by rw [he] at h; exact absurd h (by decide)
  simp [Char.isWhitespace, h1, h2, h3, h4]

theorem record_chars_not_ws (t : DateTime) (s : PinStates) :
    ∀ c ∈ dumpsObj (recordMembers (now_iso_utc t) s), c.isWhitespace = false := by
  intro c hc
  have hiso : ∀ x ∈ now_iso_utc t, Char.isWhitespace x = false := by
    intro x hx
    rw [now_iso_utc_eq] at hx
    rcases List.mem_append.mp hx with h | h
    · rcases isoBase_chars t x h with hd | rfl | rfl | rfl | rfl
      · have := isDigit_toNat_range x hd
        exact not_ws_of_ge_33 x (by omega)
      all_goals decide
    · rw [List.mem_singleton] at h
      subst h
      decide
  have hval : ∀ o : Option Int, ∀ x ∈ renderJVal (optJ o),
      Char.isWhitespace x = false := by
    intro o x hx
    cases o with
    | none =>
      have hx' : x ∈ ['n', 'u', 'l', 'l'] := by
        simpa [renderJVal, optJ,
          show "null".data = ['n', 'u', 'l', 'l'] from by decide] using hx
      fin_cases hx' <;> decide
    | some v =>
      simp only [optJ, renderJVal] at hx
      rcases intToChars_chars v x hx with hd | rfl
      · have := isDigit_toNat_range x hd
        exact not_ws_of_ge_33 x (by omega)
      · decide
  rw [show dumpsObj (recordMembers (now_iso_utc t) s)
      = lbrace :: (joinSep ','
          ((recordMembers (now_iso_utc t) s).map memberRep) ++ [rbrace]) from rfl] at hc
  rcases List.mem_cons.mp hc with rfl | hc
  · decide
  rcases List.mem_append.mp hc with hc | hc
  · rcases joinSep_chars ',' _ c hc with rfl | ⟨l, hl, hcl⟩
    · decide
    · simp only [recordMembers, List.map_cons, List.map_nil, List.mem_cons,
        List.mem_singleton] at hl
      have hmem : ∀ (key : List Char) (v : JVal), l = memberRep (key, v) → c ∈ l →
          (∀ x ∈ jsonEscape key, Char.isWhitespace x = false) →
          (∀ x ∈ renderJVal v, Char.isWhitespace x = false) →
          Char.isWhitespace c = false := by
        intro key v hleq hcl hkey hv
        subst hleq
        simp only [memberRep] at hcl
        rcases List.mem_cons.mp hcl with rfl | hcl
        · decide
        rcases List.mem_append.mp hcl with h | h
        · exact hkey c h
        rcases List.mem_cons.mp h with rfl | h
        · decide
        rcases List.mem_cons.mp h with rfl | h
        · decide
        · exact hv c h
      have htsval : ∀ x ∈ renderJVal (JVal.jstr (now_iso_utc t)),
          Char.isWhitespace x = false := by
        intro x hx
        simp only [renderJVal] at hx
        rcases List.mem_cons.mp hx with rfl | hx
        · decide
        rcases List.mem_append.mp hx with h | h
        · rw [jsonEscape_now_iso] at h
          exact hiso x h
        · rw [List.mem_singleton] at h
          subst h
          decide
      rcases hl with rfl | rfl | rfl | rfl | rfl | hl
      · exact hmem _ _ rfl hcl
          (by decide : ∀ x ∈ jsonEscape "ts_utc".data, Char.isWhitespace x = false)
          htsval
      · exact hmem _ _ rfl hcl
          (by decide : ∀ x ∈ jsonEscape "d4".data, Char.isWhitespace x = false)
          (hval s.d4)
      · exact hmem _ _ rfl hcl
          (by decide : ∀ x ∈ jsonEscape "d5".data, Char.isWhitespace x = false)
          (hval s.d5)
      · exact hmem _ _ rfl hcl
          (by decide : ∀ x ∈ jsonEscape "d6".data, Char.isWhitespace x = false)
          (hval s.d6)
      · exact hmem _ _ rfl hcl
          (by decide : ∀ x ∈ jsonEscape "d7".data, Char.isWhitespace x = false)
          (hval s.d7)
      · simp at hl
  · rw [List.mem_singleton] at hc
    subst hc
    decide

theorem sortByT_of_sorted (l : List Sample)
    (h : l.Chain' (fun a b => dtKey a.t ≤ dtKey b.t)) : sortByT l = l := by
  induction l with
  | nil => rfl
  | cons x xs ih =>
    rw [sortByT]
    cases xs with
    | nil => rfl
    | cons y ys =>
      rw [List.chain'_cons] at h
      rw [ih h.2, sortInsert, if_pos h.1]

/-- The sample the reader reconstructs from one written record. -/
def readBack (p : PinStates × DateTime) : Sample :=
  ⟨p.2, p.1.states 4, p.1.states 5, p.1.states 6, p.1.states 7⟩

theorem lineParse_record (s : PinStates) (t : DateTime) (hv : t.valid = true) :
    lineParse (dumpsObj (recordMembers (now_iso_utc t) s)) = some (readBack (s, t)) := by
  have hstrip : pyStrip (dumpsObj (recordMembers (now_iso_utc t) s))
      = dumpsObj (recordMembers (now_iso_utc t) s) :=
    pyStrip_eq_self _ (record_chars_not_ws t s)
  have hne : dumpsObj (recordMembers (now_iso_utc t) s) ≠ [] :=
    List.cons_ne_nil lbrace _
  rw [lineParse, hstrip, if_neg hne, readRecordLine_record s t hv]
  rfl

theorem read_lines_records (xs : List (PinStates × DateTime))
    (hv : ∀ p ∈ xs, p.2.valid = true) :
    ((xs.map fun p => dumpsObj (recordMembers (now_iso_utc p.2) p.1)).filterMap lineParse)
      = xs.map readBack := by
  induction xs with
  | nil => rfl
  | cons p ps ih =>
    rw [List.map_cons, List.filterMap_cons,
      lineParse_record p.1 p.2 (hv p (List.mem_cons_self p ps)),
      ih fun q hq => hv q (List.mem_cons_of_mem p hq), List.map_cons]

theorem read_ndjson_flatten (xs : List (PinStates × DateTime))
    (hv : ∀ p ∈ xs, p.2.valid = true)
    (hmono : xs.Chain' (fun p q => dtKey p.2 ≤ dtKey q.2)) :
    read_ndjson (autoRecords xs).flatten = xs.map readBack := by
  have h1 : autoRecords xs
      = (xs.map fun p => dumpsObj (recordMembers (now_iso_utc p.2) p.1)).map
          (· ++ ['\n']) := by
    rw [List.map_map]
    rfl
  have hnonl : ∀ b ∈ xs.map fun p => dumpsObj (recordMembers (now_iso_utc p.2) p.1),
      '\n' ∉ b := by
    intro b hb hmem
    obtain ⟨p, _, rfl⟩ := List.mem_map.mp hb
    have := record_chars_not_ws p.2 p.1 '\n' hmem
    exact absurd this (by decide)
  rw [read_ndjson, h1, splitOnChar_flatten '\n' _ hnonl, List.filterMap_append,
    read_lines_records xs hv]
  have hlast : List.filterMap lineParse [[]] = [] := rfl
  rw [hlast, List.append_nil]
  exact sortByT_of_sorted _ ((List.chain'_map _).mpr hmono)

/-- Reading one freshly written record back. -/
theorem read_single_record (s : PinStates) (t : DateTime) (hv : t.valid = true) :
    read_ndjson (sampleRecord (now_iso_utc t) s) = [readBack (s, t)] := by
  have h := read_ndjson_flatten [(s, t)] (by simpa using hv)
    (List.chain'_singleton _)
  simpa [autoRecords] using h

/-! ## C5: round trip -/

/-- The pin mapping the log reader can yield for a read-back sample:
only the four tracked fields exist. -/
def readerPinMap (smp : Sample) (p : Int) : Option Int :=
  if p = 4 then smp.d4
  else if p = 5 then smp.d5
  else if p = 6 then smp.d6
  else if p = 7 then smp.d7
  else none

/-- C5 counterexample: a sample carrying pin 9 serializes to a record
with all four tracked fields `null`, and the reader yields no state at
all for pin 9 — so round-tripping does NOT preserve the state of every
pin present in the sample, only of the tracked pins 4–7. -/
theorem C5_counterexample_untracked_pin :
    (PinStates.mk fun k => if k = 9 then some 1 else none).states 9 = some 1
    ∧ read_ndjson (sampleRecord (now_iso_utc exTime)
        ⟨fun k => if k = 9 then some 1 else none⟩)
      = [⟨exTime, none, none, none, none⟩]
    ∧ readerPinMap ⟨exTime, none, none, none, none⟩ 9 = none := by
  refine ⟨by decide, ?_, by decide⟩
  have h := read_single_record ⟨fun k => if k = 9 then some 1 else none⟩ exTime
    (by decide)
  simpa [readBack] using h

/-- C5 (amended): serializing a sample with `write_sample` and parsing
the record back as the log reader does yields the same pin state for each
of the four tracked pins 4–7 — present values preserved, absent tracked
pins stay absent rather than being coerced to 0; pins outside the
tracked set are not persisted at all. -/
theorem C5_round_trip_tracked (s : PinStates) (t : DateTime) (hv : t.valid = true) :
    read_ndjson (sampleRecord (now_iso_utc t) s)
      = [⟨t, s.states 4, s.states 5, s.states 6, s.states 7⟩]
    ∧ ∀ smp, read_ndjson (sampleRecord (now_iso_utc t) s) = [smp] →
        ∀ p ∈ ([4, 5, 6, 7] : List Int), readerPinMap smp p = s.states p := by
  refine ⟨read_single_record s t hv, ?_⟩
  intro smp hsmp p hp
  rw [read_single_record s t hv] at hsmp
  obtain rfl := (List.cons.injEq _ _ _ _).mp hsmp |>.1
  fin_cases hp <;> rfl

/-- Witness for C5 at the sample `{4: 1}` and the example instant. -/
theorem C5_round_trip_tracked_witness :
    read_ndjson (sampleRecord (now_iso_utc exTime) exSample)
      = [⟨exTime, some 1, none, none, none⟩] := by
  have h := (C5_round_trip_tracked exSample exTime (by decide)).1
  simpa [exSample] using h

/-! ## C6: order and monotonicity of the read-back log -/

/-- C6: for a run writing decoded samples in order through the Append
Log (service default `flush_every = 1`, fresh file), reading the closed
log back yields exactly those samples in write order with identical pin
values, with non-decreasing timestamps (timestamps are auto-assigned
from a clock that does not run backwards, the `hmono` hypothesis of this
model). -/
theorem C6_read_back_in_order (xs : List (PinStates × DateTime))
    (hv : ∀ p ∈ xs, p.2.valid = true)
    (hmono : xs.Chain' (fun p q => dtKey p.2 ≤ dtKey q.2)) :
    ∀ lg', writeMany ⟨1, true, 0, ⟨[], []⟩⟩ xs = some lg' →
      read_ndjson lg'.close.file.content = xs.map readBack
      ∧ (read_ndjson lg'.close.file.content).Chain'
          (fun a b => dtKey a.t ≤ dtKey b.t) := by
  intro lg' hw
  have h2 := writeMany_take_pos 1 (by decide) [] xs xs.length (le_refl _)
  rw [List.take_length] at h2
  rw [show ((1 : Nat) : Int) = (1 : Int) from rfl] at h2
  rw [hw] at h2
  obtain rfl := Option.some.inj h2
  have hlen : (autoRecords xs).length = xs.length := by simp [autoRecords]
  have e1 : 1 * (xs.length / 1) = xs.length := by simp
  have e2 : (autoRecords xs).take xs.length = autoRecords xs := by
    rw [← hlen, List.take_length]
  have hclose : (PinSampleJSONLogger.close
      ⟨(1 : Int), true, xs.length % 1,
        ⟨[] ++ ((autoRecords xs).take (1 * (xs.length / 1))).flatten,
         (((autoRecords xs).take xs.length).drop (1 * (xs.length / 1))).flatten⟩⟩).file.content
      = (autoRecords xs).flatten := by
    simp [PinSampleJSONLogger.close, e1, e2, List.drop_eq_nil_of_le hlen.le]
  rw [hclose, read_ndjson_flatten xs hv hmono]
  exact ⟨rfl, (List.chain'_map _).mpr hmono⟩

/-- Witness for C6: one sample written and read back. -/
theorem C6_read_back_in_order_witness :
    read_ndjson ((PinSampleJSONLogger.close
        ⟨(1 : Int), true, 1 % 1,
          ⟨[] ++ ((autoRecords [(exSample, exTime)]).take (1 * (1 / 1))).flatten,
           (((autoRecords [(exSample, exTime)]).take 1).drop (1 * (1 / 1))).flatten⟩⟩).file.content)
      = [(exSample, exTime)].map readBack := by
  have hw := writeMany_take_pos 1 (by decide) [] [(exSample, exTime)] 1 (by decide)
  rw [show List.take 1 [(exSample, exTime)] = [(exSample, exTime)] from rfl] at hw
  rw [show ((1 : Nat) : Int) = (1 : Int) from rfl] at hw
  exact (C6_read_back_in_order [(exSample, exTime)]
    (by
      intro p hp
      rw [List.mem_singleton] at hp
      subst hp
      decide)
    (List.chain'_singleton _) _ hw).1

/-! ## Acquisition Service (`services.PinLoggingService`) -/

/-- The lock-protected status fields of `PinLoggingService`.  Wall-clock
times are abstract `Nat` instants. -/
structure ServiceStatusState where
  running : Bool
  started_at : Option Nat
  last_sample_at : Option Nat
  last_states : Option PinStates
  samples_written : Nat
  bad_reads : Nat
  last_error : Option (List Char)

/-- The state of a freshly constructed service. -/
def initState : ServiceStatusState :=
  ⟨false, none, none, none, 0, 0, none⟩

/-- The snapshot dict `get_status` returns. -/
structure StatusSnapshot where
  running : Bool
  uptime_s : Option Nat
  last_sample_age_s : Option Nat
  samples_written : Nat
  bad_reads : Nat
  last_error : Option (List Char)
  pins_d4 : Option Int
  pins_d5 : Option Int
  pins_d6 : Option Int
  pins_d7 : Option Int

/-- `PinLoggingService.get_status`: every field is copied from the same
status state under one lock acquisition (the state argument `st` is that
single point-in-time state); `alive` is `is_running()` and `now` is
`time.time()` read inside the critical section.  A stored epoch of `0`
is falsy in Python, reproduced here. -/
def get_status (st : ServiceStatusState) (now : Nat) (alive : Bool) : StatusSnapshot :=
  { running := alive
    uptime_s := (match st.started_at with
      | some ts => if ts = 0 then none else some (now - ts)
      | none => none)
    last_sample_age_s := (match st.last_sample_at with
      | some ts => if ts = 0 then none else some (now - ts)
      | none => none)
    samples_written := st.samples_written
    bad_reads := st.bad_reads
    last_error := st.last_error
    pins_d4 := (match st.last_states with | some l => l.d4 | none => none)
    pins_d5 := (match st.last_states with | some l => l.d5 | none => none)
    pins_d6 := (match st.last_states with | some l => l.d6 | none => none)
    pins_d7 := (match st.last_states with | some l => l.d7 | none => none) }

/-- One loop iteration's outcome: a read with no data, or a decoded
sample (with its `time.time()` reading) whose append either succeeds or
fails with an error message. -/
inductive LoopEv where
  | noData
  | sample (s : PinStates) (t : Nat) (writeErr : Option (List Char))

/-- The sequence of lock-quantum states the loop body produces: each list
element is the status state right after one critical section, in program
order (`read_states` is None → bad-read count; sample → cache update,
then either the samples-written count or the write-error message). -/
def runLoop : ServiceStatusState → List LoopEv → List ServiceStatusState
  | _, [] => []
  | st, .noData :: evs =>
    let st' := { st with bad_reads := st.bad_reads + 1 }
    st' :: runLoop st' evs
  | st, .sample s t werr :: evs =>
    let st1 := { st with last_states := some s, last_sample_at := some t }
    match werr with
    | none =>
      let st2 := { st1 with samples_written := st1.samples_written + 1 }
      st1 :: st2 :: runLoop st2 evs
    | some e =>
      let st2 := { st1 with last_error := some e }
      st1 :: st2 :: runLoop st2 evs

/-- All lock-quantum states of one `_run` execution that enters its loop:
the startup critical section, then the loop trace. -/
def runStates (st0 : ServiceStatusState) (tstart : Nat) (evs : List LoopEv) :
    List ServiceStatusState :=
  let stInit :=
    { st0 with running := true, started_at := some tstart, last_error := none }
  stInit :: runLoop stInit evs

/-- The C7 invariant: a sample count of at least one implies the cached
last-sample fields are populated. -/
def lastPresent (st : ServiceStatusState) : Prop :=
  1 ≤ st.samples_written →
    st.last_states.isSome = true ∧ st.last_sample_at.isSome = true

theorem runLoop_inv (evs : List LoopEv) :
    ∀ st, lastPresent st → ∀ st' ∈ runLoop st evs, lastPresent st' := by
  induction evs with
  | nil =>
    intro st _ st' h
    simp [runLoop] at h
  | cons ev evs ih =>
    intro st hst st' h
    match ev with
    | .noData =>
      rw [runLoop] at h
      rcases List.mem_cons.mp h with rfl | h
      · intro hc
        exact hst hc
      · exact ih { st with bad_reads := st.bad_reads + 1 } (fun hc => hst hc) st' h
    | .sample s t werr =>
      cases werr with
      | none =>
        simp only [runLoop] at h
        rcases List.mem_cons.mp h with rfl | h
        · intro _
          exact ⟨rfl, rfl⟩
        rcases List.mem_cons.mp h with rfl | h
        · intro _
          exact ⟨rfl, rfl⟩
        · exact ih { st with last_states := some s, last_sample_at := some t, samples_written := st.samples_written + 1 } (fun _ => ⟨rfl, rfl⟩) st' h
      | some e =>
        simp only [runLoop] at h
        rcases List.mem_cons.mp h with rfl | h
        · intro _
          exact ⟨rfl, rfl⟩
        rcases List.mem_cons.mp h with rfl | h
        · intro _
          exact ⟨rfl, rfl⟩
        · exact ih { st with last_states := some s, last_sample_at := some t, last_error := some e } (fun _ => ⟨rfl, rfl⟩) st' h

/-- C7: in every state reachable by the acquisition loop from a fresh
service, a snapshot showing at least one sample written has the cached
last-sample state and timestamp already present, and the snapshot's pin
fields are exactly that single state's cached sample's — every snapshot
field is computed from one state copied under the one status lock. -/
theorem C7_snapshot_consistent (tstart : Nat) (evs : List LoopEv)
    (st' : ServiceStatusState) (hmem : st' ∈ runStates initState tstart evs)
    (now : Nat) (alive : Bool)
    (hcount : 1 ≤ (get_status st' now alive).samples_written) :
    st'.last_states.isSome = true ∧ st'.last_sample_at.isSome = true
    ∧ (∃ l, st'.last_states = some l
        ∧ (get_status st' now alive).pins_d4 = l.d4
        ∧ (get_status st' now alive).pins_d5 = l.d5
        ∧ (get_status st' now alive).pins_d6 = l.d6
        ∧ (get_status st' now alive).pins_d7 = l.d7)
    ∧ (get_status st' now alive).samples_written = st'.samples_written
    ∧ (get_status st' now alive).bad_reads = st'.bad_reads
    ∧ (get_status st' now alive).last_error = st'.last_error := by
  have hsnap : (get_status st' now alive).samples_written = st'.samples_written := rfl
  rw [hsnap] at hcount
  have hinv : lastPresent st' := by
    rw [runStates] at hmem
    rcases List.mem_cons.mp hmem with rfl | hmem
    · intro hc
      simp [initState] at hc
    · exact runLoop_inv evs _ (by intro hc; simp [initState] at hc) st' hmem
  obtain ⟨hsome, htsome⟩ := hinv hcount
  obtain ⟨l, hl⟩ := Option.isSome_iff_exists.mp hsome
  refine ⟨hsome, htsome, ⟨l, hl, ?_, ?_, ?_, ?_⟩, rfl, rfl, rfl⟩ <;>
    simp [get_status, hl]

/-- Witness for C7: after one successfully logged sample, the invariant
holds at the post-increment state. -/
theorem C7_snapshot_consistent_witness :
    ∃ st', st' ∈ runStates initState 5 [LoopEv.sample exSample 6 none]
      ∧ 1 ≤ st'.samples_written ∧ st'.last_states.isSome = true := by
  have hmem : (⟨true, some 5, some 6, some exSample, 1, 0, none⟩ : ServiceStatusState)
      ∈ runStates initState 5 [LoopEv.sample exSample 6 none] :=
    List.mem_cons_of_mem _ (List.mem_cons_of_mem _ (List.mem_cons_self _ _))
  refine ⟨_, hmem, Nat.le_refl 1, ?_⟩
  exact (C7_snapshot_consistent 5 [LoopEv.sample exSample 6 none] _ hmem
    7 true (Nat.le_refl 1)).1

/-! ## C8: startup failure path of `_run` -/

/-- `PinSampleJSONLogger.open`: no-op when the handle exists, otherwise
open for append (the flush counter is NOT reset). -/
def PinSampleJSONLogger.openHandle (lg : PinSampleJSONLogger) : PinSampleJSONLogger :=
  if lg.isOpen then lg else { lg with isOpen := true }

/-- The execution of `_run` when `serial.Serial` raises while the
monitor's `__enter__` runs: startup critical section, `logger.open()`,
the failed open (the monitor's `_ser` is never assigned), the `except`
block recording `"fatal: " + msg`, and the `finally` block closing the
logger and clearing the running flag.  The `with` body is never entered,
so no read is ever attempted and the function returns normally — nothing
unwinds past the worker. -/
def run_open_failure (st0 : ServiceStatusState) (tstart : Nat) (emsg : List Char)
    (lg : PinSampleJSONLogger) :
    ServiceStatusState × PinSampleJSONLogger × ArduinoPinMonitor :=
  let st1 :=
    { st0 with running := true, started_at := some tstart, last_error := none }
  let lg1 := lg.openHandle
  let mon : ArduinoPinMonitor := ⟨none⟩
  let st2 := { st1 with last_error := some ("fatal: ".data ++ emsg) }
  let lg2 := lg1.close
  let st3 := { st2 with running := false }
  (st3, lg2, mon)

/-- C8: if the serial connection cannot be opened at service start, the
loop terminates without any read attempt or retry (the sample and
bad-read counters are untouched), the status records a non-empty fatal
error and a cleared running flag, and both resources end closed, with a
second close a no-op. -/
theorem C8_startup_failure (st0 : ServiceStatusState) (tstart : Nat)
    (emsg : List Char) (lg : PinSampleJSONLogger) :
    (run_open_failure st0 tstart emsg lg).1.running = false
    ∧ (run_open_failure st0 tstart emsg lg).1.last_error
        = some ("fatal: ".data ++ emsg)
    ∧ (run_open_failure st0 tstart emsg lg).1.last_error ≠ none
    ∧ (run_open_failure st0 tstart emsg lg).1.samples_written = st0.samples_written
    ∧ (run_open_failure st0 tstart emsg lg).1.bad_reads = st0.bad_reads
    ∧ (run_open_failure st0 tstart emsg lg).2.1.isOpen = false
    ∧ (run_open_failure st0 tstart emsg lg).2.2.ser = none
    ∧ (run_open_failure st0 tstart emsg lg).2.1.close
        = (run_open_failure st0 tstart emsg lg).2.1
    ∧ (run_open_failure st0 tstart emsg lg).2.2.close
        = (run_open_failure st0 tstart emsg lg).2.2 := by
  refine ⟨rfl, rfl, by simp [run_open_failure], rfl, rfl, ?_, rfl, ?_, rfl⟩
  · show ((lg.openHandle).close).isOpen = false
    rw [PinSampleJSONLogger.openHandle]
    by_cases h : lg.isOpen = true
    · simp [h, PinSampleJSONLogger.close]
    · simp only [Bool.not_eq_true] at h
      simp [h, PinSampleJSONLogger.close]
  · show ((lg.openHandle).close).close = (lg.openHandle).close
    have hnot : ((lg.openHandle).close).isOpen = false := by
      rw [PinSampleJSONLogger.openHandle]
      by_cases h : lg.isOpen = true
      · simp [h, PinSampleJSONLogger.close]
      · simp only [Bool.not_eq_true] at h
        simp [h, PinSampleJSONLogger.close]
    rw [PinSampleJSONLogger.close, hnot]
    simp

/-! ## C9: `stop` before `start`, idempotent `start` -/

/-- The control state of `PinLoggingService`: the stop event, the worker
thread handle (`some alive`, or `none` before the first `start`), and
the lock-protected status.  The blocking `join` is not modelled; its
state effects are those visible in the C9 scenarios (no thread exists,
or the second `start` finds the first worker alive). -/
structure ServiceCtl where
  stopFlagSet : Bool
  thread : Option Bool
  status : ServiceStatusState

/-- `is_running()`: `bool(self._thread and self._thread.is_alive())`. -/
def ServiceCtl.isRunningB (c : ServiceCtl) : Bool :=
  match c.thread with
  | some alive => alive
  | none => false

/-- `PinLoggingService.start`: no-op if a live worker exists, otherwise
clear the stop event and launch one worker; the boolean reports whether
a new worker thread was started. -/
def ServiceCtl.start (c : ServiceCtl) : ServiceCtl × Bool :=
  match c.thread with
  | some true => (c, false)
  | _ => ({ c with stopFlagSet := false, thread := some true }, true)

/-- `PinLoggingService.stop`: set the stop event, join if a thread
exists (a no-op when none does, the case this model covers precisely),
then force the running flag false under the lock. -/
def ServiceCtl.stop (c : ServiceCtl) : ServiceCtl :=
  { c with stopFlagSet := true, status := { c.status with running := false } }

/-- C9: `stop()` before `start()` leaves the observable service state
unchanged — still not running, all status fields as before; and
`start()` on a service with a live worker starts nothing new, so two
consecutive `start()` calls from a stopped service spawn exactly one
worker thread. -/
theorem C9_stop_noop_start_idempotent (c : ServiceCtl) :
    (c.thread = none → c.status.running = false →
      ((c.stop).status = c.status ∧ (c.stop).thread = none
        ∧ (c.stop).isRunningB = false))
    ∧ (c.isRunningB = false →
        ((c.start).2 = true ∧ ((c.start).1.start).2 = false
          ∧ ((c.start).1.start).1 = (c.start).1)) := by
  have hfix : ∀ s : ServiceStatusState, s.running = false →
      { s with running := false } = s := by
    intro s h
    cases s
    simp only at h
    simp [h]
  constructor
  · intro hth hrun
    refine ⟨hfix c.status hrun, ?_, ?_⟩
    · simp [ServiceCtl.stop, hth]
    · simp [ServiceCtl.stop, ServiceCtl.isRunningB, hth]
  · intro hrun
    match hth : c.thread with
    | none =>
      refine ⟨?_, ?_, ?_⟩ <;> simp [ServiceCtl.start, hth]
    | some false =>
      refine ⟨?_, ?_, ?_⟩ <;> simp [ServiceCtl.start, hth]
    | some true =>
      rw [ServiceCtl.isRunningB, hth] at hrun
      exact absurd hrun (by decide)

/-- Witness for C9 at a freshly constructed service. -/
theorem C9_stop_noop_start_idempotent_witness :
    ((ServiceCtl.stop ⟨false, none, initState⟩).status = initState
      ∧ (ServiceCtl.stop ⟨false, none, initState⟩).isRunningB = false)
    ∧ ((ServiceCtl.start ⟨false, none, initState⟩).2 = true
      ∧ ((ServiceCtl.start ⟨false, none, initState⟩).1.start).2 = false) := by
  obtain ⟨h1, h2⟩ := C9_stop_noop_start_idempotent ⟨false, none, initState⟩
  obtain ⟨ha, _, hc⟩ := h1 rfl rfl
  obtain ⟨hd, he, _⟩ := h2 rfl
  exact ⟨⟨ha, hc⟩, hd, he⟩

/-! ## C10: a line of only commas yields the empty sample -/

/-- C10: a raw line that is non-empty after trimming but whose
comma-separated trimmed tokens are all empty is NOT reported as no-data:
`read_states` returns a sample with the empty pin mapping; its record
serializes all four pin fields as `null`; and the service loop counts it
as a sample written (after caching it as the last sample). -/
theorem C10_comma_only_line (raw : List Char) (rest : List (List Char))
    (hne : pyStrip raw ≠ []) (htok : lineTokens (pyStrip raw) = []) :
    (read_states ⟨some ⟨true, raw :: rest⟩⟩).1
      = ReadResult.sample ⟨PinDict.empty⟩
    ∧ (∀ k, PinDict.empty k = none)
    ∧ (∀ ts, renderJVal (optJ (PinStates.mk PinDict.empty).d4) = "null".data
        ∧ renderJVal (optJ (PinStates.mk PinDict.empty).d5) = "null".data
        ∧ renderJVal (optJ (PinStates.mk PinDict.empty).d6) = "null".data
        ∧ renderJVal (optJ (PinStates.mk PinDict.empty).d7) = "null".data
        ∧ sampleRecord ts ⟨PinDict.empty⟩
          = dumpsObj (recordMembers ts ⟨PinDict.empty⟩) ++ ['\n'])
    ∧ (∀ st : ServiceStatusState, ∀ t : Nat,
        runLoop st [LoopEv.sample ⟨PinDict.empty⟩ t none]
          = [{ st with last_states := some ⟨PinDict.empty⟩, last_sample_at := some t }, { st with last_states := some ⟨PinDict.empty⟩, last_sample_at := some t, samples_written := st.samples_written + 1 }]
        ∧ ({ st with last_states := some ⟨PinDict.empty⟩, last_sample_at := some t, samples_written := st.samples_written + 1 }).samples_written
            = st.samples_written + 1) := by
  have hraw : raw ≠ [] := by
    intro h
    subst h
    exact hne rfl
  have hparse : parse_line (pyStrip raw) = some PinDict.empty := by
    rw [parse_line]
    rw [htok]
    rfl
  refine ⟨?_, fun k => rfl, fun ts => ⟨rfl, rfl, rfl, rfl, rfl⟩, fun st t => ⟨?_, rfl⟩⟩
  · rw [read_states]
    simp only [if_neg (fun h : raw = [] => hraw h), hraw, hne, hparse]
    simp [hraw, hne, hparse]
  · rfl

/-- Witness for C10 at the line `",,"`. -/
theorem C10_comma_only_line_witness :
    (read_states ⟨some ⟨true, [[',', ',']]⟩⟩).1
      = ReadResult.sample ⟨PinDict.empty⟩ := by
  exact (C10_comma_only_line [',', ','] [] (by decide) (by decide)).1

end PinLog
